import Mathlib

/-!
Verification of the LRU cache engine in `ENDLABEXAM2.py`.

The Python code keeps a dict `cache : key -> LRUNode` together with a
doubly-linked recency list whose nodes are heap objects linked by `prev`/`next`
references, with two sentinel nodes `head` and `tail`.

Shallow embedding: nodes live in an arena (`List (LRUNode V)`); a Python object
reference becomes the node's arena index, and Python `None` becomes `none` in
the `Option Nat` valued `prev`/`next` fields.  Index 0 is the head sentinel and
index 1 the tail sentinel, allocated by the constructor; `LRUNode(key, value)`
allocation appends to the arena.  The dict is an association list
(`List (String × Nat)`) mapping a key to the arena index of its node; Python
dict primitives `d.get`, `d[k] = v` (fresh key) and `del d[k]` become
`dictGet`, append and `dictDel`.  An operation that can hit a Python runtime
error (attribute access on `None`, `del` of an absent key) returns `Option`,
with `none` standing for the raised exception.  `time()` values are threaded in
as explicit `now : Nat` arguments.
-/

/-- `CacheMetrics` dataclass: the counters (the derived `hit_rate` /
`miss_rate` properties are float-typed presentation and not modelled). -/
structure CacheMetrics where
  hits : Nat
  misses : Nat
  evictions : Nat
  total_requests : Nat
  cache_size : Nat
  max_size : Nat
deriving Repr, DecidableEq

/-- `LRUNode`: `key`, `value`, `prev`, `next`, `timestamp`.  Sentinels are
built as `LRUNode("", None)`, so `value` is `Option V` with `none` for the
sentinels' `None` payload. -/
structure LRUNode (V : Type) where
  key : String
  value : Option V
  prev : Option Nat
  next : Option Nat
  timestamp : Nat
deriving Repr, DecidableEq

/-- `LRUCache` state: capacity, the node arena (index 0 = `head` sentinel,
index 1 = `tail` sentinel), the dict `cache`, and the metrics object. -/
structure LRUCache (V : Type) where
  capacity : Nat
  nodes : List (LRUNode V)
  cache : List (String × Nat)
  metrics : CacheMetrics
deriving Repr, DecidableEq

/-- Python `d.get(key)` on the dict: first (and, invariantly, only) binding. -/
def dictGet (k : String) : List (String × Nat) → Option Nat
  | [] => none
  | (k', i) :: rest => if k' = k then some i else dictGet k rest

/-- Python `del d[key]`: removes the binding, raising `KeyError` (modelled as
`none`) when the key is absent.  Since a dict never holds a duplicate key,
removal of every binding of `k` coincides with removal of its one binding. -/
def dictDel (k : String) (m : List (String × Nat)) : Option (List (String × Nat)) :=
  match dictGet k m with
  | some _ => some (m.filter (fun p => p.1 ≠ k))
  | none => none

namespace LRUCache

variable {V : Type}

/-- Read an arena slot (a Python object dereference; out of range is
unreachable and modelled as `none`). -/
def node? (c : LRUCache V) (i : Nat) : Option (LRUNode V) :=
  c.nodes[i]?

/-- Overwrite an arena slot (mutating one Python node object in place). -/
def setNode (c : LRUCache V) (i : Nat) (n : LRUNode V) : LRUCache V :=
  { c with nodes := c.nodes.set i n }

/-- `LRUCache.__init__`: raises `ValueError` for `capacity <= 0`; otherwise
builds the empty dict, zeroed metrics with `max_size=capacity`, and the two
sentinels linked `head <-> tail`.  `now` is the `time()` the two `LRUNode`
constructor calls observe. -/
def mkLRUCache (V : Type) (capacity : Int) (now : Nat) : Except String (LRUCache V) :=
  if capacity ≤ 0 then .error "Capacity must be greater than 0"
  else .ok
    { capacity := capacity.toNat
      nodes := [⟨"", none, none, some 1, now⟩, ⟨"", none, some 0, none, now⟩]
      cache := []
      metrics := ⟨0, 0, 0, 0, 0, capacity.toNat⟩ }

/-- `_add_node(node)`: splice the node at index `i` in right after the head
sentinel.  Python lines in order: `node.prev, node.next = self.head,
self.head.next`; `self.head.next.prev = node`; `self.head.next = node`. -/
def _add_node (c : LRUCache V) (i : Nat) : Option (LRUCache V) := do
  let hd ← c.node? 0
  let f ← hd.next
  let nd ← c.node? i
  let c := c.setNode i { nd with prev := some 0, next := some f }
  let fn ← c.node? f
  let c := c.setNode f { fn with prev := some i }
  let hd' ← c.node? 0
  return c.setNode 0 { hd' with next := some i }

/-- `_remove_node(node)`: `node.prev.next, node.next.prev = node.next,
node.prev`.  Both `node.prev` and `node.next` are dereferenced, so a `None`
in either raises (returns `none`). -/
def _remove_node (c : LRUCache V) (i : Nat) : Option (LRUCache V) := do
  let nd ← c.node? i
  let p ← nd.prev
  let n ← nd.next
  let pn ← c.node? p
  let c := c.setNode p { pn with next := nd.next }
  let nn ← c.node? n
  return c.setNode n { nn with prev := nd.prev }

/-- `_move_to_head(node)`: `_remove_node` then `_add_node`. -/
def _move_to_head (c : LRUCache V) (i : Nat) : Option (LRUCache V) := do
  let c ← c._remove_node i
  c._add_node i

/-- `_pop_tail()`: `last = self.tail.prev`; if `last == self.head` return
`None`; else `_remove_node(last)` and return it.  A `None` in `tail.prev`
would flow into `_remove_node(None)` and raise, hence the outer `none`. -/
def _pop_tail (c : LRUCache V) : Option (Option Nat × LRUCache V) := do
  let tl ← c.node? 1
  match tl.prev with
  | none => none
  | some last =>
    if last = 0 then
      return (none, c)
    else do
      let c ← c._remove_node last
      return (some last, c)

/-- `get(key)`: bump `total_requests`; on a dict miss bump `misses` and return
`None`; on a hit move the node to the head, bump `hits`, and return the node's
`value`. -/
def get (c : LRUCache V) (key : String) : Option (Option V × LRUCache V) := do
  let c := { c with metrics.total_requests := c.metrics.total_requests + 1 }
  match dictGet key c.cache with
  | none =>
    return (none, { c with metrics.misses := c.metrics.misses + 1 })
  | some i => do
    let c ← c._move_to_head i
    let c := { c with metrics.hits := c.metrics.hits + 1 }
    let nd ← c.node? i
    return (nd.value, c)

/-- `put(key, value)`.  New key: allocate `LRUNode(key, value)` (arena append,
timestamp `now`); if `len(cache) >= capacity`, `_pop_tail` and, when it yields
a node, `del cache[tail.key]` and bump `evictions`; then `cache[key] =
new_node`, `_add_node`, refresh `metrics.cache_size`, return `True`.
Existing key: overwrite `value` and `timestamp`, `_move_to_head`, return
`False`. -/
def put (c : LRUCache V) (key : String) (value : V) (now : Nat) :
    Option (Bool × LRUCache V) :=
  match dictGet key c.cache with
  | none =>
    let newIdx := c.nodes.length
    let c : LRUCache V := { c with nodes := c.nodes ++ [⟨key, some value, none, none, now⟩] }
    do
    let c ←
      if c.cache.length ≥ c.capacity then do
        let (popped, c) ← c._pop_tail
        match popped with
        | some ti => do
          let tn ← c.node? ti
          let m ← dictDel tn.key c.cache
          pure { c with cache := m,
                        metrics.evictions := c.metrics.evictions + 1 }
        | none => pure c
      else pure c
    let c : LRUCache V := { c with cache := c.cache ++ [(key, newIdx)] }
    let c ← c._add_node newIdx
    return (true, { c with metrics.cache_size := c.cache.length })
  | some i => do
    let nd ← c.node? i
    let c := c.setNode i { nd with value := some value, timestamp := now }
    let c ← c._move_to_head i
    return (false, c)

/-- `delete(key)`: absent key returns `False` untouched; present key is
unlinked, removed from the dict, `cache_size` refreshed, returns `True`. -/
def delete (c : LRUCache V) (key : String) : Option (Bool × LRUCache V) :=
  match dictGet key c.cache with
  | none => some (false, c)
  | some i => do
    let c ← c._remove_node i
    let m ← dictDel key c.cache
    let c : LRUCache V := { c with cache := m }
    return (true, { c with metrics.cache_size := c.cache.length })

/-- `clear()`: empty the dict, relink `head.next = tail` and `tail.prev =
head`, zero `metrics.cache_size`.  The other counters are untouched. -/
def clear (c : LRUCache V) : Option (LRUCache V) := do
  let c : LRUCache V := { c with cache := [] }
  let hd ← c.node? 0
  let c := c.setNode 0 { hd with next := some 1 }
  let tl ← c.node? 1
  let c := c.setNode 1 { tl with prev := some 0 }
  return { c with metrics.cache_size := 0 }

/-- `size()`: `len(self.cache)`. -/
def size (c : LRUCache V) : Nat :=
  c.cache.length

/-- `get_metrics()`: refresh `metrics.cache_size` to the dict length and
return the metrics object (a state-mutating read). -/
def get_metrics (c : LRUCache V) : CacheMetrics × LRUCache V :=
  let m := { c.metrics with cache_size := c.cache.length }
  (m, { c with metrics := m })

end LRUCache

/-! ## The recency-list representation invariant

The doubly-linked structure is well formed when the `prev`/`next` pointers
spell out a chain `head :: interior ++ [tail]` (indices `0`, `l`, `1`), the
dict holds exactly the interior nodes keyed by their `key` fields, and every
interior node carries a payload. -/

/-- The key stored at arena slot `i` (sentinel-style `""` off the arena). -/
def keyAtN {V : Type} (ns : List (LRUNode V)) (i : Nat) : String :=
  match ns[i]? with
  | some n => n.key
  | none => ""

/-- The payload stored at arena slot `i`. -/
def valAtN {V : Type} (ns : List (LRUNode V)) (i : Nat) : Option V :=
  match ns[i]? with
  | some n => n.value
  | none => none

/-- The `(prev, next)` pointer pair at arena slot `i`, `none` off the arena. -/
def ptrAt {V : Type} (ns : List (LRUNode V)) (i : Nat) : Option (Option Nat × Option Nat) :=
  match ns[i]? with
  | some n => some (n.prev, n.next)
  | none => none

/-- Nodes `a` and `b` are adjacent in the linked structure: `a.next` points
at `b` and `b.prev` points back at `a`. -/
def linked {V : Type} (ns : List (LRUNode V)) (a b : Nat) : Prop :=
  (∃ x, ns[a]? = some x ∧ x.next = some b) ∧
  (∃ y, ns[b]? = some y ∧ y.prev = some a)

/-- Executable test for `linked`. -/
def linkedB {V : Type} (ns : List (LRUNode V)) (a b : Nat) : Bool :=
  (match ns[a]? with
   | some x => decide (x.next = some b)
   | none => false) &&
  (match ns[b]? with
   | some y => decide (y.prev = some a)
   | none => false)

theorem linkedB_iff {V : Type} (ns : List (LRUNode V)) (a b : Nat) :
    linkedB ns a b = true ↔ linked ns a b := by
  unfold linkedB linked
  cases ns[a]? <;> cases ns[b]? <;> simp

instance instDecidableLinked {V : Type} (ns : List (LRUNode V)) (a b : Nat) :
    Decidable (linked ns a b) :=
  decidable_of_iff _ (linkedB_iff ns a b)

theorem linked_iff_ptrAt {V : Type} {ns : List (LRUNode V)} {a b : Nat} :
    linked ns a b ↔
      (∃ p, ptrAt ns a = some p ∧ p.2 = some b) ∧
      (∃ q, ptrAt ns b = some q ∧ q.1 = some a) := by
  unfold linked ptrAt
  cases ns[a]? <;> cases ns[b]? <;> simp

theorem linked_congr {V : Type} {ns ns' : List (LRUNode V)} {a b : Nat}
    (ha : ptrAt ns' a = ptrAt ns a) (hb : ptrAt ns' b = ptrAt ns b) :
    linked ns' a b ↔ linked ns a b := by
  rw [linked_iff_ptrAt, linked_iff_ptrAt, ha, hb]

theorem linked_lt {V : Type} {ns : List (LRUNode V)} {a b : Nat} (h : linked ns a b) :
    a < ns.length ∧ b < ns.length := by
  obtain ⟨⟨x, hx, -⟩, ⟨y, hy, -⟩⟩ := h
  exact ⟨(List.getElem?_eq_some.mp hx).1, (List.getElem?_eq_some.mp hy).1⟩

theorem chain'_linked_congr {V : Type} {ns ns' : List (LRUNode V)} : ∀ {L : List Nat},
    (∀ j ∈ L, ptrAt ns' j = ptrAt ns j) →
    (List.Chain' (linked ns') L ↔ List.Chain' (linked ns) L)
  | [], _ => by simp
  | [_], _ => by simp
  | a :: b :: L, h => by
    rw [List.chain'_cons, List.chain'_cons,
      linked_congr (h a (by simp)) (h b (by simp)),
      chain'_linked_congr (fun j hj => h j (List.mem_cons_of_mem a hj))]

theorem chain'_linked_mem_lt {V : Type} {ns : List (LRUNode V)} : ∀ {L : List Nat},
    List.Chain' (linked ns) L → 2 ≤ L.length → ∀ j ∈ L, j < ns.length
  | [], _, h2 => by simp at h2
  | [_], _, h2 => by simp at h2
  | a :: b :: L, hc, _ => by
    rw [List.chain'_cons] at hc
    intro j hj
    rcases List.mem_cons.mp hj with rfl | hj'
    · exact (linked_lt hc.1).1
    · cases L with
      | nil =>
        rcases List.mem_cons.mp hj' with rfl | h
        · exact (linked_lt hc.1).2
        · exact absurd h (List.not_mem_nil j)
      | cons x L' => exact chain'_linked_mem_lt hc.2 (by simp) j hj'

/-- Pointer view after overwriting slot `j` with a node sharing its pointers. -/
theorem ptrAt_set_ne {V : Type} {ns : List (LRUNode V)} {j x : Nat} (n : LRUNode V)
    (h : j ≠ x) : ptrAt (ns.set j n) x = ptrAt ns x := by
  unfold ptrAt
  rw [List.getElem?_set_ne h]

theorem keyAtN_set_ne {V : Type} {ns : List (LRUNode V)} {j x : Nat} (n : LRUNode V)
    (h : j ≠ x) : keyAtN (ns.set j n) x = keyAtN ns x := by
  unfold keyAtN
  rw [List.getElem?_set_ne h]

theorem valAtN_set_ne {V : Type} {ns : List (LRUNode V)} {j x : Nat} (n : LRUNode V)
    (h : j ≠ x) : valAtN (ns.set j n) x = valAtN ns x := by
  unfold valAtN
  rw [List.getElem?_set_ne h]

theorem keyAtN_set_preserve {V : Type} {ns : List (LRUNode V)} {j : Nat} {m n : LRUNode V}
    (hm : ns[j]? = some m) (hk : n.key = m.key) (x : Nat) :
    keyAtN (ns.set j n) x = keyAtN ns x := by
  rcases eq_or_ne j x with rfl | hne
  · unfold keyAtN
    rw [List.getElem?_set_eq_of_lt n (List.getElem?_eq_some.mp hm).1, hm]
    simpa using hk
  · exact keyAtN_set_ne n hne

theorem valAtN_set_preserve {V : Type} {ns : List (LRUNode V)} {j : Nat} {m n : LRUNode V}
    (hm : ns[j]? = some m) (hv : n.value = m.value) (x : Nat) :
    valAtN (ns.set j n) x = valAtN ns x := by
  rcases eq_or_ne j x with rfl | hne
  · unfold valAtN
    rw [List.getElem?_set_eq_of_lt n (List.getElem?_eq_some.mp hm).1, hm]
    simpa using hv
  · exact valAtN_set_ne n hne

/-- Arena append does not disturb existing slots' pointer / key / value views. -/
theorem ptrAt_append {V : Type} {ns : List (LRUNode V)} (ms : List (LRUNode V))
    {x : Nat} (h : x < ns.length) : ptrAt (ns ++ ms) x = ptrAt ns x := by
  unfold ptrAt
  rw [List.getElem?_append, if_pos h]

theorem keyAtN_append {V : Type} {ns : List (LRUNode V)} (ms : List (LRUNode V))
    {x : Nat} (h : x < ns.length) : keyAtN (ns ++ ms) x = keyAtN ns x := by
  unfold keyAtN
  rw [List.getElem?_append, if_pos h]

theorem valAtN_append {V : Type} {ns : List (LRUNode V)} (ms : List (LRUNode V))
    {x : Nat} (h : x < ns.length) : valAtN (ns ++ ms) x = valAtN ns x := by
  unfold valAtN
  rw [List.getElem?_append, if_pos h]

/-- Representation invariant of the cache for a given interior index list `l`,
ordered most-recently-used first: the pointers realize the chain
`0 :: l ++ [1]` with no index repeated, the dict is (up to dict ordering)
exactly `l` keyed by the nodes' keys with no key repeated, and every interior
node holds a payload. -/
def WFL {V : Type} (c : LRUCache V) (l : List Nat) : Prop :=
  List.Chain' (linked c.nodes) (0 :: l ++ [1]) ∧
  (0 :: l ++ [1]).Nodup ∧
  c.cache.Perm (l.map fun i => (keyAtN c.nodes i, i)) ∧
  (c.cache.map Prod.fst).Nodup ∧
  ∀ i ∈ l, (valAtN c.nodes i).isSome = true

/-- Executable chain check matching `List.Chain' (linked ns)`. -/
def chainB {V : Type} (ns : List (LRUNode V)) : List Nat → Bool
  | [] => true
  | [_] => true
  | a :: b :: rest => linkedB ns a b && chainB ns (b :: rest)

theorem chainB_iff {V : Type} (ns : List (LRUNode V)) : ∀ (L : List Nat),
    chainB ns L = true ↔ List.Chain' (linked ns) L
  | [] => by simp [chainB]
  | [a] => by simp [chainB]
  | a :: b :: rest => by
    show (linkedB ns a b && chainB ns (b :: rest)) = true ↔ _
    rw [Bool.and_eq_true, linkedB_iff, chainB_iff ns (b :: rest), List.chain'_cons]

instance instDecidableWFL {V : Type} (c : LRUCache V) (l : List Nat) :
    Decidable (WFL c l) :=
  decidable_of_iff
    (chainB c.nodes (0 :: l ++ [1]) = true ∧
      (0 :: l ++ [1]).Nodup ∧
      c.cache.Perm (l.map fun i => (keyAtN c.nodes i, i)) ∧
      (c.cache.map Prod.fst).Nodup ∧
      ∀ i ∈ l, (valAtN c.nodes i).isSome = true)
    (by rw [chainB_iff]; exact Iff.rfl)

/-! ## Dict lemmas -/

theorem dictGet_eq_none_iff {k : String} : ∀ {m : List (String × Nat)},
    dictGet k m = none ↔ ∀ p ∈ m, p.1 ≠ k
  | [] => by simp [dictGet]
  | (k', i) :: rest => by
    by_cases h : k' = k <;>
      simp [dictGet, h, dictGet_eq_none_iff (m := rest)]

theorem dictGet_mem {k : String} {i : Nat} : ∀ {m : List (String × Nat)},
    dictGet k m = some i → (k, i) ∈ m
  | [], h => by simp [dictGet] at h
  | (k', i') :: rest, h => by
    by_cases hk : k' = k
    · simp [dictGet, hk] at h
      simp [hk, h]
    · simp [dictGet, hk] at h
      exact List.mem_cons_of_mem _ (dictGet_mem h)

theorem mem_dictGet {k : String} {i : Nat} : ∀ {m : List (String × Nat)},
    (m.map Prod.fst).Nodup → (k, i) ∈ m → dictGet k m = some i
  | [], _, h => by simp at h
  | (k', i') :: rest, hnd, h => by
    simp only [List.map_cons, List.nodup_cons, List.mem_map] at hnd
    rcases List.mem_cons.mp h with heq | hmem
    · obtain ⟨h1, h2⟩ := Prod.ext_iff.mp heq
      simp only at h1 h2
      subst h1
      subst h2
      simp [dictGet]
    · have hne : k' ≠ k := by
        rintro rfl
        exact hnd.1 ⟨(k', i), hmem, rfl⟩
      simp [dictGet, hne]
      exact mem_dictGet hnd.2 hmem

theorem dictGet_append_of_none {k : String} {m₁ : List (String × Nat)}
    (h : dictGet k m₁ = none) (m₂ : List (String × Nat)) :
    dictGet k (m₁ ++ m₂) = dictGet k m₂ := by
  induction m₁ with
  | nil => simp
  | cons p rest ih =>
    obtain ⟨k', i'⟩ := p
    by_cases hk : k' = k
    · simp [dictGet, hk] at h
    · simp [dictGet, hk] at h ⊢
      exact ih h

theorem dictGet_append_of_some {k : String} {m₁ : List (String × Nat)} {i : Nat}
    (h : dictGet k m₁ = some i) (m₂ : List (String × Nat)) :
    dictGet k (m₁ ++ m₂) = some i := by
  induction m₁ with
  | nil => simp [dictGet] at h
  | cons p rest ih =>
    obtain ⟨k', i'⟩ := p
    by_cases hk : k' = k <;> simp [dictGet, hk] at h ⊢
    · exact h
    · exact ih h

theorem dictGet_filter_self (k : String) (m : List (String × Nat)) :
    dictGet k (m.filter fun p => p.1 ≠ k) = none := by
  rw [dictGet_eq_none_iff]
  intro p hp
  simpa using (List.mem_filter.mp hp).2

theorem dictGet_singleton_ne {k k' : String} {i : Nat} (h : k' ≠ k) :
    dictGet k [(k', i)] = none := by
  simp [dictGet, h]

theorem dictGet_singleton_self (k : String) (i : Nat) :
    dictGet k [(k, i)] = some i := by
  simp [dictGet]

/-! ## Consequences of the invariant -/

theorem WFL.chain {V : Type} {c : LRUCache V} {l : List Nat} (hw : WFL c l) :
    List.Chain' (linked c.nodes) (0 :: l ++ [1]) := hw.1

theorem WFL.nodupIdx {V : Type} {c : LRUCache V} {l : List Nat} (hw : WFL c l) :
    (0 :: l ++ [1]).Nodup := hw.2.1

theorem WFL.perm {V : Type} {c : LRUCache V} {l : List Nat} (hw : WFL c l) :
    c.cache.Perm (l.map fun i => (keyAtN c.nodes i, i)) := hw.2.2.1

theorem WFL.keysNodup {V : Type} {c : LRUCache V} {l : List Nat} (hw : WFL c l) :
    (c.cache.map Prod.fst).Nodup := hw.2.2.2.1

theorem WFL.vals {V : Type} {c : LRUCache V} {l : List Nat} (hw : WFL c l) :
    ∀ i ∈ l, (valAtN c.nodes i).isSome = true := hw.2.2.2.2

theorem WFL.length_eq {V : Type} {c : LRUCache V} {l : List Nat} (hw : WFL c l) :
    c.cache.length = l.length := by
  have := hw.perm.length_eq
  simpa using this

theorem WFL.lt_length {V : Type} {c : LRUCache V} {l : List Nat} (hw : WFL c l) :
    ∀ j ∈ 0 :: l ++ [1], j < c.nodes.length :=
  chain'_linked_mem_lt hw.chain (by simp)

theorem WFL.keyList_nodup {V : Type} {c : LRUCache V} {l : List Nat} (hw : WFL c l) :
    (l.map (keyAtN c.nodes)).Nodup := by
  have h := hw.keysNodup
  have := (hw.perm.map Prod.fst).nodup_iff.mp h
  simpa [Function.comp] using this

theorem WFL.dictGet_some_iff {V : Type} {c : LRUCache V} {l : List Nat} (hw : WFL c l)
    {k : String} {i : Nat} :
    dictGet k c.cache = some i ↔ i ∈ l ∧ keyAtN c.nodes i = k := by
  constructor
  · intro h
    have hm : (k, i) ∈ c.cache := dictGet_mem h
    have hm' := hw.perm.mem_iff.mp hm
    obtain ⟨i', hi', heq⟩ := List.mem_map.mp hm'
    obtain ⟨hk, hidx⟩ := Prod.ext_iff.mp heq
    simp only at hk hidx
    subst hidx
    exact ⟨hi', hk⟩
  · rintro ⟨hi, rfl⟩
    apply mem_dictGet hw.keysNodup
    exact hw.perm.mem_iff.mpr (List.mem_map.mpr ⟨i, hi, rfl⟩)

theorem WFL.dictGet_none_iff {V : Type} {c : LRUCache V} {l : List Nat} (hw : WFL c l)
    {k : String} :
    dictGet k c.cache = none ↔ ∀ i ∈ l, keyAtN c.nodes i ≠ k := by
  rw [dictGet_eq_none_iff]
  constructor
  · intro h i hi
    exact h _ (hw.perm.mem_iff.mpr (List.mem_map.mpr ⟨i, hi, rfl⟩))
  · intro h p hp
    have hm' := hw.perm.mem_iff.mp hp
    obtain ⟨i', hi', heq⟩ := List.mem_map.mp hm'
    rw [← heq]
    exact h i' hi'

/-- `WFL` only looks at the arena and the dict. -/
theorem WFL.congr {V : Type} {c c' : LRUCache V} {l : List Nat} (hw : WFL c l)
    (hn : c'.nodes = c.nodes) (hc : c'.cache = c.cache) : WFL c' l := by
  unfold WFL at hw ⊢
  rw [hn, hc]
  exact hw

/-! ## Computation helpers for the arena primitives -/

namespace LRUCache

variable {V : Type}

@[simp] theorem setNode_cache (c : LRUCache V) (i : Nat) (n : LRUNode V) :
    (c.setNode i n).cache = c.cache := rfl

@[simp] theorem setNode_metrics (c : LRUCache V) (i : Nat) (n : LRUNode V) :
    (c.setNode i n).metrics = c.metrics := rfl

@[simp] theorem setNode_capacity (c : LRUCache V) (i : Nat) (n : LRUNode V) :
    (c.setNode i n).capacity = c.capacity := rfl

@[simp] theorem setNode_nodes (c : LRUCache V) (i : Nat) (n : LRUNode V) :
    (c.setNode i n).nodes = c.nodes.set i n := rfl

theorem node?_set_ne {c : LRUCache V} {j x : Nat} (n : LRUNode V) (h : j ≠ x) :
    (c.setNode j n).node? x = c.node? x := by
  unfold node?
  exact List.getElem?_set_ne h

theorem node?_set_self {c : LRUCache V} {j : Nat} (n : LRUNode V)
    (h : j < c.nodes.length) : (c.setNode j n).node? j = some n := by
  unfold node?
  exact List.getElem?_set_eq_of_lt n h

/-! ## Structural effect of the splice primitives -/

/-- Raw computation of `_remove_node` once the reads are known. -/
theorem _remove_node_eq {c : LRUCache V} {i a b : Nat} {ni na nb : LRUNode V}
    (hni : c.nodes[i]? = some ni) (hp : ni.prev = some a) (hn : ni.next = some b)
    (hna : c.nodes[a]? = some na) (hab : a ≠ b) (hnb : c.nodes[b]? = some nb) :
    c._remove_node i = some
      ((c.setNode a { na with next := some b }).setNode b { nb with prev := some a }) := by
  unfold _remove_node node?
  rw [hni]
  simp only [Option.bind_eq_bind, Option.some_bind, hp, hn, hna, setNode_nodes]
  rw [List.getElem?_set_ne hab, hnb]
  simp only [Option.some_bind, Option.pure_def]

/-- `_remove_node` on the interior node `i` of a well-linked chain
`xs ++ a :: i :: b :: ys` splices it out, leaving everything observable
about the other nodes (and the dict and metrics) unchanged. -/
theorem _remove_node_spec {c : LRUCache V} {xs : List Nat} {a i b : Nat} {ys : List Nat}
    (hc : List.Chain' (linked c.nodes) (xs ++ a :: i :: b :: ys))
    (hd : (xs ++ a :: i :: b :: ys).Nodup) :
    ∃ c', c._remove_node i = some c' ∧
      List.Chain' (linked c'.nodes) (xs ++ a :: b :: ys) ∧
      c'.nodes.length = c.nodes.length ∧
      (∀ j, keyAtN c'.nodes j = keyAtN c.nodes j) ∧
      (∀ j, valAtN c'.nodes j = valAtN c.nodes j) ∧
      c'.cache = c.cache ∧ c'.metrics = c.metrics ∧ c'.capacity = c.capacity := by
  rw [List.nodup_append] at hd
  obtain ⟨hndxs, hndr, hdisj⟩ := hd
  have hai : a ≠ i := by rintro rfl; simp at hndr
  have hab : a ≠ b := by rintro rfl; simp at hndr
  have hib : i ≠ b := by rintro rfl; simp at hndr
  have hay : a ∉ ys := by simp [List.nodup_cons] at hndr; tauto
  have hby : b ∉ ys := by simp [List.nodup_cons] at hndr; tauto
  have haxs : a ∉ xs := fun h => hdisj h (by simp)
  have hbxs : b ∉ xs := fun h => hdisj h (by simp)
  rw [List.chain'_append] at hc
  obtain ⟨hcxs, hcr, hglue⟩ := hc
  rw [List.chain'_cons] at hcr
  obtain ⟨hlai, hcr⟩ := hcr
  rw [List.chain'_cons] at hcr
  obtain ⟨hlib, hcby⟩ := hcr
  obtain ⟨⟨na, hna, hnaN⟩, ⟨ni, hni, hniP⟩⟩ := hlai
  obtain ⟨⟨ni', hni', hniN⟩, ⟨nb, hnb, hnbP⟩⟩ := hlib
  rw [hni] at hni'
  injection hni' with hnieq
  subst hnieq
  have hlena : a < c.nodes.length := (List.getElem?_eq_some.mp hna).1
  have hlenb : b < c.nodes.length := (List.getElem?_eq_some.mp hnb).1
  refine ⟨(c.setNode a { na with next := some b }).setNode b { nb with prev := some a },
    _remove_node_eq hni hniP hniN hna hab hnb, ?_, ?_, ?_, ?_, rfl, rfl, rfl⟩
  · -- the new chain
    have hA : ((c.nodes.set a { na with next := some b }).set b
        { nb with prev := some a })[a]? = some { na with next := some b } := by
      rw [List.getElem?_set_ne (Ne.symm hab)]
      exact List.getElem?_set_eq_of_lt _ hlena
    have hB : ((c.nodes.set a { na with next := some b }).set b
        { nb with prev := some a })[b]? = some { nb with prev := some a } := by
      refine List.getElem?_set_eq_of_lt _ ?_
      simpa using hlenb
    have hOther : ∀ x, x ≠ a → x ≠ b →
        ((c.nodes.set a { na with next := some b }).set b
          { nb with prev := some a })[x]? = c.nodes[x]? := by
      intro x hxa hxb
      rw [List.getElem?_set_ne (fun h => hxb h.symm), List.getElem?_set_ne (fun h => hxa h.symm)]
    simp only [setNode_nodes]
    rw [List.chain'_append]
    refine ⟨?_, ?_, ?_⟩
    · -- chain within xs is untouched
      refine (chain'_linked_congr ?_).mpr hcxs
      intro j hj
      unfold ptrAt
      rw [hOther j (fun h => haxs (h ▸ hj)) (fun h => hbxs (h ▸ hj))]
    · -- a :: b :: ys
      rw [List.chain'_cons]
      constructor
      · exact ⟨⟨_, hA, rfl⟩, ⟨_, hB, rfl⟩⟩
      · rw [List.chain'_cons'] at hcby ⊢
        obtain ⟨hbh, hys⟩ := hcby
        constructor
        · intro y hy
          have hymem : y ∈ ys := List.mem_of_mem_head? hy
          obtain ⟨⟨nb₂, hnb₂, hnbN⟩, ⟨ny, hny, hnyP⟩⟩ := hbh y hy
          rw [hnb] at hnb₂
          injection hnb₂ with hbeq
          subst hbeq
          refine ⟨⟨_, hB, hnbN⟩, ⟨ny, ?_, hnyP⟩⟩
          rw [hOther y (fun h => hay (h ▸ hymem)) (fun h => hby (h ▸ hymem))]
          exact hny
        · refine (chain'_linked_congr ?_).mpr hys
          intro j hj
          unfold ptrAt
          rw [hOther j (fun h => hay (h ▸ hj)) (fun h => hby (h ▸ hj))]
    · -- glue between xs and a
      intro x hx y hy
      simp only [List.head?_cons, Option.mem_def, Option.some.injEq] at hy
      subst hy
      obtain ⟨⟨nx, hnx, hnxN⟩, ⟨na₂, hna₂, hnaP⟩⟩ := hglue x hx a (by simp)
      rw [hna] at hna₂
      injection hna₂ with haeq
      subst haeq
      have hxmem : x ∈ xs := List.mem_of_mem_getLast? hx
      refine ⟨⟨nx, ?_, hnxN⟩, ⟨_, hA, hnaP⟩⟩
      rw [hOther x (fun h => haxs (h ▸ hxmem)) (fun h => hbxs (h ▸ hxmem))]
      exact hnx
  · simp
  · intro j
    have h1 : (c.nodes.set a { na with next := some b })[b]? = some nb := by
      rw [List.getElem?_set_ne (fun h => hab h)]
      exact hnb
    rw [setNode_nodes, setNode_nodes,
      keyAtN_set_preserve (n := { nb with prev := some a }) h1 rfl,
      keyAtN_set_preserve (n := { na with next := some b }) hna rfl]
  · intro j
    have h1 : (c.nodes.set a { na with next := some b })[b]? = some nb := by
      rw [List.getElem?_set_ne (fun h => hab h)]
      exact hnb
    rw [setNode_nodes, setNode_nodes,
      valAtN_set_preserve (n := { nb with prev := some a }) h1 rfl,
      valAtN_set_preserve (n := { na with next := some b }) hna rfl]

/-- Raw computation of `_add_node` once the reads are known. -/
theorem _add_node_eq {c : LRUCache V} {i f : Nat} {h₀ ni nf : LRUNode V}
    (hhd : c.nodes[0]? = some h₀) (hf : h₀.next = some f)
    (hni : c.nodes[i]? = some ni) (hnf : c.nodes[f]? = some nf)
    (hif : i ≠ f) (hi0 : i ≠ 0) (hf0 : f ≠ 0) :
    c._add_node i = some
      (((c.setNode i { ni with prev := some 0, next := some f }).setNode f
          { nf with prev := some i }).setNode 0 { h₀ with next := some i }) := by
  unfold _add_node node?
  rw [hhd]
  simp only [Option.bind_eq_bind, Option.some_bind, hf, hni, setNode_nodes]
  rw [List.getElem?_set_ne hif, hnf]
  simp only [Option.some_bind, setNode_nodes]
  rw [List.getElem?_set_ne (fun h => hf0 h), List.getElem?_set_ne (fun h => hi0 h), hhd]
  simp only [Option.some_bind, Option.pure_def]

/-- `_add_node` splices a fresh in-bounds node `i` right after the head
sentinel of a well-linked chain `0 :: M ++ [1]`, preserving keys, values,
dict and metrics. -/
theorem _add_node_spec {c : LRUCache V} {M : List Nat} {i : Nat}
    (hc : List.Chain' (linked c.nodes) (0 :: M ++ [1]))
    (hd : (0 :: M ++ [1]).Nodup)
    (hi : i < c.nodes.length) (hiM : i ∉ 0 :: M ++ [1]) :
    ∃ c', c._add_node i = some c' ∧
      List.Chain' (linked c'.nodes) (0 :: i :: M ++ [1]) ∧
      (0 :: i :: M ++ [1]).Nodup ∧
      c'.nodes.length = c.nodes.length ∧
      (∀ j, keyAtN c'.nodes j = keyAtN c.nodes j) ∧
      (∀ j, valAtN c'.nodes j = valAtN c.nodes j) ∧
      c'.cache = c.cache ∧ c'.metrics = c.metrics ∧ c'.capacity = c.capacity := by
  obtain ⟨f, L', hML⟩ : ∃ f L', M ++ [1] = f :: L' := by
    cases M with
    | nil => exact ⟨1, [], rfl⟩
    | cons m M' => exact ⟨m, M' ++ [1], List.cons_append m M' [1]⟩
  have hi0 : i ≠ 0 := by
    rintro rfl
    exact hiM (by simp)
  have hif : i ≠ f := by
    rintro rfl
    exact hiM (by simp [hML])
  have hiL' : i ∉ L' := by
    intro h
    exact hiM (by simp [hML, h])
  have hnd' : (0 :: f :: L').Nodup := by
    rw [← hML]
    exact hd
  have hf0 : f ≠ 0 := by
    rintro rfl
    simp at hnd'
  have h0L' : (0 : Nat) ∉ L' := by
    simp [List.nodup_cons] at hnd'
    tauto
  have hfL' : f ∉ L' := by
    simp [List.nodup_cons] at hnd'
    tauto
  have hc' : List.Chain' (linked c.nodes) (0 :: f :: L') := by
    rw [← hML]
    exact hc
  rw [List.chain'_cons] at hc'
  obtain ⟨hl0f, hcfl⟩ := hc'
  obtain ⟨⟨h₀, hhd, hhdN⟩, ⟨nf, hnf, hnfP⟩⟩ := hl0f
  obtain ⟨ni, hni⟩ : ∃ ni, c.nodes[i]? = some ni :=
    ⟨c.nodes[i], List.getElem?_eq_some.mpr ⟨hi, rfl⟩⟩
  have hlen0 : 0 < c.nodes.length := (List.getElem?_eq_some.mp hhd).1
  have hlenf : f < c.nodes.length := (List.getElem?_eq_some.mp hnf).1
  refine ⟨_, _add_node_eq hhd hhdN hni hnf hif hi0 hf0, ?_, ?_, ?_, ?_, ?_, rfl, rfl, rfl⟩
  · -- the new chain 0 :: i :: f :: L'
    have hI : (((c.nodes.set i { ni with prev := some 0, next := some f }).set f
        { nf with prev := some i }).set 0 { h₀ with next := some i })[i]? =
        some { ni with prev := some 0, next := some f } := by
      rw [List.getElem?_set_ne (fun h => hi0 h.symm),
        List.getElem?_set_ne (fun h => hif h.symm)]
      exact List.getElem?_set_eq_of_lt _ hi
    have hF : (((c.nodes.set i { ni with prev := some 0, next := some f }).set f
        { nf with prev := some i }).set 0 { h₀ with next := some i })[f]? =
        some { nf with prev := some i } := by
      rw [List.getElem?_set_ne (fun h => hf0 h.symm)]
      exact List.getElem?_set_eq_of_lt _ (by simpa using hlenf)
    have hZ : (((c.nodes.set i { ni with prev := some 0, next := some f }).set f
        { nf with prev := some i }).set 0 { h₀ with next := some i })[0]? =
        some { h₀ with next := some i } := by
      exact List.getElem?_set_eq_of_lt _ (by simpa using hlen0)
    have hOther : ∀ x, x ≠ 0 → x ≠ f → x ≠ i →
        (((c.nodes.set i { ni with prev := some 0, next := some f }).set f
          { nf with prev := some i }).set 0 { h₀ with next := some i })[x]? =
        c.nodes[x]? := by
      intro x hx0 hxf hxi
      rw [List.getElem?_set_ne (fun h => hx0 h.symm),
        List.getElem?_set_ne (fun h => hxf h.symm),
        List.getElem?_set_ne (fun h => hxi h.symm)]
    show List.Chain' _ (0 :: i :: M ++ [1])
    rw [show (0 :: i :: M ++ [1] : List Nat) = 0 :: i :: (M ++ [1]) from rfl, hML]
    simp only [setNode_nodes]
    rw [List.chain'_cons, List.chain'_cons]
    refine ⟨⟨⟨_, hZ, rfl⟩, ⟨_, hI, rfl⟩⟩, ⟨⟨_, hI, rfl⟩, ⟨_, hF, rfl⟩⟩, ?_⟩
    rw [List.chain'_cons'] at hcfl ⊢
    obtain ⟨hfh, hL'⟩ := hcfl
    constructor
    · intro y hy
      have hymem : y ∈ L' := List.mem_of_mem_head? hy
      obtain ⟨⟨nf₂, hnf₂, hnfN⟩, ⟨ny, hny, hnyP⟩⟩ := hfh y hy
      rw [hnf] at hnf₂
      injection hnf₂ with hfeq
      subst hfeq
      refine ⟨⟨_, hF, hnfN⟩, ⟨ny, ?_, hnyP⟩⟩
      rw [hOther y (fun h => h0L' (h ▸ hymem)) (fun h => hfL' (h ▸ hymem))
        (fun h => hiL' (h ▸ hymem))]
      exact hny
    · refine (chain'_linked_congr ?_).mpr hL'
      intro j hj
      unfold ptrAt
      rw [hOther j (fun h => h0L' (h ▸ hj)) (fun h => hfL' (h ▸ hj))
        (fun h => hiL' (h ▸ hj))]
  · -- nodup of the new index list
    refine ((List.Perm.swap 0 i (M ++ [1])).nodup_iff).mp ?_
    exact List.nodup_cons.mpr ⟨hiM, hd⟩
  · simp
  · intro j
    have h1 : ((c.nodes.set i { ni with prev := some 0, next := some f }).set f
        { nf with prev := some i })[0]? = some h₀ := by
      rw [List.getElem?_set_ne (fun h => hf0 h), List.getElem?_set_ne (fun h => hi0 h)]
      exact hhd
    have h2 : (c.nodes.set i { ni with prev := some 0, next := some f })[f]? = some nf := by
      rw [List.getElem?_set_ne (fun h => hif h)]
      exact hnf
    rw [setNode_nodes, setNode_nodes, setNode_nodes,
      keyAtN_set_preserve (n := { h₀ with next := some i }) h1 rfl,
      keyAtN_set_preserve (n := { nf with prev := some i }) h2 rfl,
      keyAtN_set_preserve (n := { ni with prev := some 0, next := some f }) hni rfl]
  · intro j
    have h1 : ((c.nodes.set i { ni with prev := some 0, next := some f }).set f
        { nf with prev := some i })[0]? = some h₀ := by
      rw [List.getElem?_set_ne (fun h => hf0 h), List.getElem?_set_ne (fun h => hi0 h)]
      exact hhd
    have h2 : (c.nodes.set i { ni with prev := some 0, next := some f })[f]? = some nf := by
      rw [List.getElem?_set_ne (fun h => hif h)]
      exact hnf
    rw [setNode_nodes, setNode_nodes, setNode_nodes,
      valAtN_set_preserve (n := { h₀ with next := some i }) h1 rfl,
      valAtN_set_preserve (n := { nf with prev := some i }) h2 rfl,
      valAtN_set_preserve (n := { ni with prev := some 0, next := some f }) hni rfl]

/-- Last element of `x :: (l ++ [jt])`. -/
theorem getLast?_cons_concat : ∀ (l : List Nat) (x jt : Nat),
    (x :: (l ++ [jt])).getLast? = some jt
  | [], _, _ => rfl
  | y :: ys, x, jt => by
    rw [List.cons_append, List.getLast?_cons_cons]
    exact getLast?_cons_concat ys y jt

/-- Pulling the distinguished middle element out of the chain index list:
what remains is duplicate-free and no longer contains it. -/
theorem nodup_pull_mid {i : Nat} {l₁ l₂ : List Nat}
    (hd : (0 :: (l₁ ++ i :: l₂) ++ [1]).Nodup) :
    i ∉ (0 :: (l₁ ++ l₂) ++ [1] : List Nat) ∧ (0 :: (l₁ ++ l₂) ++ [1] : List Nat).Nodup := by
  have hperm : (0 :: (l₁ ++ i :: l₂) ++ [1] : List Nat).Perm
      (i :: (0 :: (l₁ ++ l₂) ++ [1])) := by
    have h1 : (0 :: (l₁ ++ i :: l₂) ++ [1] : List Nat).Perm
        (0 :: (i :: (l₁ ++ l₂)) ++ [1]) :=
      ((List.perm_middle).append_right [1]).cons 0
    refine h1.trans ?_
    have h2 : (0 :: (i :: (l₁ ++ l₂)) ++ [1] : List Nat) =
        0 :: i :: ((l₁ ++ l₂) ++ [1]) := by simp
    have h3 : (i :: (0 :: (l₁ ++ l₂) ++ [1]) : List Nat) =
        i :: 0 :: ((l₁ ++ l₂) ++ [1]) := by simp
    rw [h2, h3]
    exact List.Perm.swap i 0 _
  have hnd := hperm.nodup_iff.mp hd
  rw [List.nodup_cons] at hnd
  exact hnd

/-- `_move_to_head` on the interior node `i` of the chain reorders the
interior from `l₁ ++ i :: l₂` to `i :: (l₁ ++ l₂)` and changes nothing
else observable. -/
theorem _move_to_head_spec {c : LRUCache V} {l₁ l₂ : List Nat} {i : Nat}
    (hc : List.Chain' (linked c.nodes) (0 :: (l₁ ++ i :: l₂) ++ [1]))
    (hd : (0 :: (l₁ ++ i :: l₂) ++ [1]).Nodup) :
    ∃ c', c._move_to_head i = some c' ∧
      List.Chain' (linked c'.nodes) (0 :: (i :: (l₁ ++ l₂)) ++ [1]) ∧
      (0 :: (i :: (l₁ ++ l₂)) ++ [1]).Nodup ∧
      c'.nodes.length = c.nodes.length ∧
      (∀ j, keyAtN c'.nodes j = keyAtN c.nodes j) ∧
      (∀ j, valAtN c'.nodes j = valAtN c.nodes j) ∧
      c'.cache = c.cache ∧ c'.metrics = c.metrics ∧ c'.capacity = c.capacity := by
  have hd0 := hd
  have hc0 := hc
  obtain ⟨hiNew, hdl⟩ := nodup_pull_mid hd
  have hiLt : i < c.nodes.length := by
    refine chain'_linked_mem_lt hc (by simp; omega) i ?_
    simp
  obtain ⟨xs, a, hxa⟩ : ∃ xs a, (0 :: l₁ : List Nat) = xs ++ [a] := by
    rcases List.eq_nil_or_concat (0 :: l₁) with h | ⟨xs, a, h⟩
    · exact absurd h (by simp)
    · exact ⟨xs, a, by rw [h, List.concat_eq_append]⟩
  obtain ⟨b, ys, hbys⟩ : ∃ b ys, (l₂ ++ [1] : List Nat) = b :: ys := by
    cases l₂ with
    | nil => exact ⟨1, [], rfl⟩
    | cons m M' => exact ⟨m, M' ++ [1], List.cons_append m M' [1]⟩
  have hshape : (0 :: (l₁ ++ i :: l₂) ++ [1] : List Nat) = xs ++ a :: i :: b :: ys := by
    have h0 : (0 :: (l₁ ++ i :: l₂) ++ [1] : List Nat) = (0 :: l₁) ++ i :: (l₂ ++ [1]) := by
      simp
    rw [h0, hxa, hbys]
    simp
  rw [hshape] at hc hd
  obtain ⟨c₁, hrm, hc₁, hlen₁, hkey₁, hval₁, hcache₁, hmet₁, hcap₁⟩ :=
    _remove_node_spec hc hd
  have hshape₂ : (xs ++ a :: b :: ys : List Nat) = 0 :: (l₁ ++ l₂) ++ [1] := by
    have h0 : (0 :: (l₁ ++ l₂) ++ [1] : List Nat) = (0 :: l₁) ++ (l₂ ++ [1]) := by
      simp
    rw [h0, hxa, hbys]
    simp
  rw [hshape₂] at hc₁
  obtain ⟨c₂, hadd, hc₂, hnd₂, hlen₂, hkey₂, hval₂, hcache₂, hmet₂, hcap₂⟩ :=
    _add_node_spec (M := l₁ ++ l₂) hc₁ hdl (by rw [hlen₁]; exact hiLt) hiNew
  refine ⟨c₂, ?_, ?_, ?_, ?_, ?_, ?_, ?_, ?_, ?_⟩
  · unfold _move_to_head
    rw [hrm]
    simpa using hadd
  · simpa using hc₂
  · simpa using hnd₂
  · rw [hlen₂, hlen₁]
  · intro j
    rw [hkey₂ j, hkey₁ j]
  · intro j
    rw [hval₂ j, hval₁ j]
  · rw [hcache₂, hcache₁]
  · rw [hmet₂, hmet₁]
  · rw [hcap₂, hcap₁]

/-- `_pop_tail` on a chain with a nonempty interior removes, and returns,
the tail-most interior node. -/
theorem _pop_tail_spec {c : LRUCache V} {l' : List Nat} {jt : Nat}
    (hc : List.Chain' (linked c.nodes) (0 :: (l' ++ [jt]) ++ [1]))
    (hd : (0 :: (l' ++ [jt]) ++ [1]).Nodup) :
    ∃ c', c._pop_tail = some (some jt, c') ∧
      List.Chain' (linked c'.nodes) (0 :: l' ++ [1]) ∧
      (0 :: l' ++ [1] : List Nat).Nodup ∧
      c'.nodes.length = c.nodes.length ∧
      (∀ j, keyAtN c'.nodes j = keyAtN c.nodes j) ∧
      (∀ j, valAtN c'.nodes j = valAtN c.nodes j) ∧
      c'.cache = c.cache ∧ c'.metrics = c.metrics ∧ c'.capacity = c.capacity := by
  have hdl : (0 :: l' ++ [1] : List Nat).Nodup := by
    have := @nodup_pull_mid jt l' [] (by simpa using hd)
    simpa using this.2
  have hjt0 : jt ≠ 0 := by
    have : (0 : Nat) ∉ (l' ++ [jt]) ++ [1] := by
      rw [List.cons_append, List.nodup_cons] at hd
      simpa using hd.1
    rintro rfl
    exact this (by simp)
  -- the link from the tail-most interior node to the tail sentinel
  have hglue : linked c.nodes jt 1 := by
    have h0 : (0 :: (l' ++ [jt]) ++ [1] : List Nat) = (0 :: (l' ++ [jt])) ++ [1] := by
      simp
    rw [h0, List.chain'_append] at hc
    refine hc.2.2 jt ?_ 1 (by simp)
    rw [getLast?_cons_concat]
    rfl
  obtain ⟨⟨njt, hnjt, hnjtN⟩, ⟨tl, htl, htlP⟩⟩ := hglue
  -- shape for the removal
  obtain ⟨xs, a, hxa⟩ : ∃ xs a, (0 :: l' : List Nat) = xs ++ [a] := by
    rcases List.eq_nil_or_concat (0 :: l') with h | ⟨xs, a, h⟩
    · exact absurd h (by simp)
    · exact ⟨xs, a, by rw [h, List.concat_eq_append]⟩
  have hshape : (0 :: (l' ++ [jt]) ++ [1] : List Nat) = xs ++ a :: jt :: 1 :: [] := by
    have h0 : (0 :: (l' ++ [jt]) ++ [1] : List Nat) = (0 :: l') ++ jt :: 1 :: [] := by
      simp
    rw [h0, hxa]
    simp
  have hc' := hc
  have hd' := hd
  rw [hshape] at hc' hd'
  obtain ⟨c₁, hrm, hc₁, hlen₁, hkey₁, hval₁, hcache₁, hmet₁, hcap₁⟩ :=
    _remove_node_spec hc' hd'
  have hshape₂ : (xs ++ a :: 1 :: [] : List Nat) = 0 :: l' ++ [1] := by
    have h0 : (0 :: l' ++ [1] : List Nat) = (0 :: l') ++ [1] := by simp
    rw [h0, hxa]
    simp
  rw [hshape₂] at hc₁
  refine ⟨c₁, ?_, hc₁, hdl, hlen₁, hkey₁, hval₁, hcache₁, hmet₁, hcap₁⟩
  unfold _pop_tail node?
  rw [htl]
  simp only [Option.bind_eq_bind, Option.some_bind, htlP]
  rw [if_neg hjt0]
  rw [hrm]
  simp

/-! ## Operation-level specifications -/

theorem ptrAt_set_preserve {V : Type} {ns : List (LRUNode V)} {j : Nat} {m n : LRUNode V}
    (hm : ns[j]? = some m) (hp : n.prev = m.prev) (hn : n.next = m.next) (x : Nat) :
    ptrAt (ns.set j n) x = ptrAt ns x := by
  rcases eq_or_ne j x with rfl | hne
  · unfold ptrAt
    rw [List.getElem?_set_eq_of_lt n (List.getElem?_eq_some.mp hm).1, hm]
    simp [hp, hn]
  · exact ptrAt_set_ne n hne

/-- Rebuild `WFL` after a step that kept the dict, rearranged the interior
chain by a permutation, and preserved keys and payload presence. -/
theorem WFL_transport {c c' : LRUCache V} {l l' : List Nat}
    (hw : WFL c l)
    (hchain : List.Chain' (linked c'.nodes) (0 :: l' ++ [1]))
    (hnd : (0 :: l' ++ [1]).Nodup)
    (hperm : l.Perm l')
    (hcache : c'.cache = c.cache)
    (hkey : ∀ j ∈ l', keyAtN c'.nodes j = keyAtN c.nodes j)
    (hval : ∀ j ∈ l', (valAtN c'.nodes j).isSome = true) :
    WFL c' l' := by
  refine ⟨hchain, hnd, ?_, ?_, hval⟩
  · rw [hcache, List.map_congr_left (fun j hj => by rw [hkey j hj])]
    exact hw.perm.trans (hperm.map _)
  · rw [hcache]
    exact hw.keysNodup

theorem mkLRUCache_ok {V : Type} {cap : Int} {now : Nat} (h : 0 < cap) :
    mkLRUCache V cap now = .ok
      { capacity := cap.toNat
        nodes := [⟨"", none, none, some 1, now⟩, ⟨"", none, some 0, none, now⟩]
        cache := []
        metrics := ⟨0, 0, 0, 0, 0, cap.toNat⟩ } := by
  unfold mkLRUCache
  rw [if_neg (by omega)]

theorem mkLRUCache_err {V : Type} {cap : Int} {now : Nat} (h : cap ≤ 0) :
    mkLRUCache V cap now = .error "Capacity must be greater than 0" := by
  unfold mkLRUCache
  rw [if_pos h]

/-- The freshly constructed cache is well formed with empty interior. -/
theorem WFL_mk {V : Type} {cap : Int} {now : Nat} :
    WFL ({ capacity := cap.toNat
           nodes := [⟨"", none, none, some 1, now⟩, ⟨"", none, some 0, none, now⟩]
           cache := []
           metrics := ⟨0, 0, 0, 0, 0, cap.toNat⟩ } : LRUCache V) [] := by
  refine ⟨?_, by simp, by simp, by simp, by simp⟩
  show List.Chain' _ (0 :: [1])
  rw [List.chain'_cons]
  exact ⟨⟨⟨_, rfl, rfl⟩, ⟨_, rfl, rfl⟩⟩, List.chain'_singleton 1⟩

/-- `get` on an absent key: only `misses` and `total_requests` move. -/
theorem get_spec_miss {c : LRUCache V} {k : String}
    (hk : dictGet k c.cache = none) :
    c.get k = some (none,
      { c with metrics := { c.metrics with
          total_requests := c.metrics.total_requests + 1,
          misses := c.metrics.misses + 1 } }) := by
  unfold get
  simp only [hk, Option.pure_def]

/-- `get` on a resident key: the hit value comes back, the node moves to the
front of the recency order, `hits` and `total_requests` move. -/
theorem get_spec_hit {c : LRUCache V} {l₁ l₂ : List Nat} {i : Nat} {k : String}
    (hw : WFL c (l₁ ++ i :: l₂)) (hk : dictGet k c.cache = some i) :
    ∃ c', c.get k = some (valAtN c.nodes i, c') ∧
      WFL c' (i :: (l₁ ++ l₂)) ∧
      c'.cache = c.cache ∧ c'.capacity = c.capacity ∧
      c'.nodes.length = c.nodes.length ∧
      (∀ j, keyAtN c'.nodes j = keyAtN c.nodes j) ∧
      (∀ j, valAtN c'.nodes j = valAtN c.nodes j) ∧
      c'.metrics = { c.metrics with
        hits := c.metrics.hits + 1,
        total_requests := c.metrics.total_requests + 1 } := by
  have hmv := @_move_to_head_spec V
    { c with metrics.total_requests := c.metrics.total_requests + 1 }
    l₁ l₂ i hw.chain hw.nodupIdx
  obtain ⟨c₁, hmv, hchain₁, hnd₁, hlen₁, hkey₁, hval₁, hcache₁, hmet₁, hcap₁⟩ := hmv
  have hiMem : i ∈ l₁ ++ i :: l₂ := by simp
  have hiLt : i < c.nodes.length := hw.lt_length i (by simp [hiMem])
  have hiLt₁ : i < c₁.nodes.length := by
    rw [hlen₁]
    exact hiLt
  obtain ⟨nd, hnd⟩ : ∃ nd, c₁.nodes[i]? = some nd :=
    ⟨c₁.nodes.get ⟨i, hiLt₁⟩, List.getElem?_eq_getElem hiLt₁⟩
  have hvi : nd.value = valAtN c.nodes i := by
    have := hval₁ i
    unfold valAtN at this
    rw [hnd] at this
    exact this
  refine ⟨{ c₁ with metrics.hits := c₁.metrics.hits + 1 }, ?_, ?_, ?_, ?_, ?_, ?_, ?_, ?_⟩
  · unfold get node?
    simp only [hk, hmv, Option.bind_eq_bind, Option.some_bind]
    rw [hnd]
    simp only [Option.some_bind, Option.pure_def, hvi]
  · refine WFL_transport hw hchain₁ ?_ List.perm_middle (by exact hcache₁)
      (fun j _ => by exact hkey₁ j) ?_
    · simpa using hnd₁
    · intro j hj
      rw [hval₁ j]
      exact hw.vals j (List.perm_middle.mem_iff.mpr hj)
  · exact hcache₁
  · exact hcap₁
  · exact hlen₁
  · exact hkey₁
  · exact hval₁
  · rw [hmet₁]
/-- `put` on an existing key: overwrite the payload in place, move the node
to the front, return `false`; dict, metrics and capacity untouched. -/
theorem put_update_spec {c : LRUCache V} {l₁ l₂ : List Nat} {i : Nat} {k : String}
    {v : V} {now : Nat}
    (hw : WFL c (l₁ ++ i :: l₂)) (hk : dictGet k c.cache = some i) :
    ∃ c', c.put k v now = some (false, c') ∧
      WFL c' (i :: (l₁ ++ l₂)) ∧
      c'.cache = c.cache ∧ c'.capacity = c.capacity ∧ c'.metrics = c.metrics ∧
      c'.nodes.length = c.nodes.length ∧
      (∀ j, keyAtN c'.nodes j = keyAtN c.nodes j) ∧
      valAtN c'.nodes i = some v ∧
      (∀ j, j ≠ i → valAtN c'.nodes j = valAtN c.nodes j) := by
  have hiLt : i < c.nodes.length := hw.lt_length i (by simp)
  obtain ⟨nd, hnd⟩ : ∃ nd, c.nodes[i]? = some nd :=
    ⟨c.nodes.get ⟨i, hiLt⟩, List.getElem?_eq_getElem hiLt⟩
  have hiNotIn := (nodup_pull_mid hw.nodupIdx).1
  have hchainS : List.Chain' (linked
      (c.setNode i { nd with value := some v, timestamp := now }).nodes)
      (0 :: (l₁ ++ i :: l₂) ++ [1]) := by
    refine (chain'_linked_congr ?_).mpr hw.chain
    intro j hj
    exact ptrAt_set_preserve (n := { nd with value := some v, timestamp := now }) hnd rfl rfl j
  obtain ⟨c₁, hmv, hchain₁, hnd₁, hlen₁, hkey₁, hval₁, hcache₁, hmet₁, hcap₁⟩ :=
    _move_to_head_spec (c := c.setNode i { nd with value := some v, timestamp := now })
      hchainS hw.nodupIdx
  have hvS : valAtN (c.setNode i { nd with value := some v, timestamp := now }).nodes i
      = some v := by
    show valAtN (c.nodes.set i _) i = some v
    unfold valAtN
    rw [List.getElem?_set_eq_of_lt _ hiLt]
  have hkeyS : ∀ j, keyAtN
      (c.setNode i { nd with value := some v, timestamp := now }).nodes j
      = keyAtN c.nodes j := by
    intro j
    exact keyAtN_set_preserve (n := { nd with value := some v, timestamp := now }) hnd rfl j
  have hvalS : ∀ j, j ≠ i → valAtN
      (c.setNode i { nd with value := some v, timestamp := now }).nodes j
      = valAtN c.nodes j := by
    intro j hj
    exact valAtN_set_ne _ (fun h => hj h.symm)
  refine ⟨c₁, ?_, ?_, ?_, ?_, ?_, ?_, ?_, ?_, ?_⟩
  · unfold put node?
    simp only [hk, hnd, Option.bind_eq_bind, Option.some_bind]
    rw [hmv]
    simp only [Option.some_bind, Option.pure_def]
  · refine WFL_transport hw hchain₁ (by simpa using hnd₁) List.perm_middle
      (by exact hcache₁) (fun j _ => by rw [hkey₁ j]; exact hkeyS j) ?_
    intro j hj
    rcases List.mem_cons.mp hj with rfl | hj'
    · rw [hval₁ j, hvS]
      rfl
    · have hji : j ≠ i := by
        rintro rfl
        refine hiNotIn ?_
        simp only [List.mem_cons, List.mem_append] at hj' ⊢
        tauto
      rw [hval₁ j, hvalS j hji]
      refine hw.vals j ?_
      rcases List.mem_append.mp hj' with h | h
      · exact List.mem_append.mpr (Or.inl h)
      · exact List.mem_append.mpr (Or.inr (List.mem_cons_of_mem i h))
  · exact hcache₁
  · exact hcap₁
  · exact hmet₁
  · rw [hlen₁]
    simp
  · intro j
    rw [hkey₁ j]
    exact hkeyS j
  · rw [hval₁ i]
    exact hvS
  · intro j hj
    rw [hval₁ j]
    exact hvalS j hj

/-- `put` of a fresh key with spare capacity: the new node is allocated at
the end of the arena, inserted at the front of the recency order and
appended to the dict; only `cache_size` moves among the metrics. -/
theorem put_new_spec {c : LRUCache V} {l : List Nat} {k : String} {v : V} {now : Nat}
    (hw : WFL c l) (hk : dictGet k c.cache = none)
    (hcap : c.cache.length < c.capacity) :
    ∃ c', c.put k v now = some (true, c') ∧
      WFL c' (c.nodes.length :: l) ∧
      c'.cache = c.cache ++ [(k, c.nodes.length)] ∧
      c'.capacity = c.capacity ∧
      c'.nodes.length = c.nodes.length + 1 ∧
      keyAtN c'.nodes c.nodes.length = k ∧
      valAtN c'.nodes c.nodes.length = some v ∧
      (∀ j, j ≠ c.nodes.length →
        keyAtN c'.nodes j = keyAtN c.nodes j ∧ valAtN c'.nodes j = valAtN c.nodes j) ∧
      c'.metrics = { c.metrics with cache_size := c.cache.length + 1 } := by
  have hboundAll := hw.lt_length
  -- state with the freshly allocated node and the dict entry appended
  have hchain₂ : List.Chain' (linked
      ({ c with
          nodes := c.nodes ++ [⟨k, some v, none, none, now⟩],
          cache := c.cache ++ [(k, c.nodes.length)] } : LRUCache V).nodes)
      (0 :: l ++ [1]) := by
    refine (chain'_linked_congr ?_).mpr hw.chain
    intro j hj
    exact ptrAt_append _ (hboundAll j hj)
  have hfresh : c.nodes.length ∉ (0 :: l ++ [1] : List Nat) := by
    intro h
    exact absurd (hboundAll _ h) (lt_irrefl _)
  obtain ⟨c₃, hadd, hchain₃, hnd₃, hlen₃, hkey₃, hval₃, hcache₃, hmet₃, hcap₃⟩ :=
    _add_node_spec (M := l) hchain₂ hw.nodupIdx (by simp) hfresh
  have hkeyNew : ∀ j, keyAtN c₃.nodes j =
      keyAtN (c.nodes ++ [(⟨k, some v, none, none, now⟩ : LRUNode V)]) j :=
    fun j => hkey₃ j
  have hvalNew : ∀ j, valAtN c₃.nodes j =
      valAtN (c.nodes ++ [(⟨k, some v, none, none, now⟩ : LRUNode V)]) j :=
    fun j => hval₃ j
  have hkeyAtNew : keyAtN (c.nodes ++ [(⟨k, some v, none, none, now⟩ : LRUNode V)])
      c.nodes.length = k := by
    unfold keyAtN
    rw [List.getElem?_concat_length]
  have hvalAtNew : valAtN (c.nodes ++ [(⟨k, some v, none, none, now⟩ : LRUNode V)])
      c.nodes.length = some v := by
    unfold valAtN
    rw [List.getElem?_concat_length]
  have hkeyOld : ∀ j, j ≠ c.nodes.length → keyAtN c₃.nodes j = keyAtN c.nodes j := by
    intro j hj
    rw [hkeyNew j]
    rcases Nat.lt_or_ge j c.nodes.length with h | h
    · exact keyAtN_append _ h
    · unfold keyAtN
      rw [List.getElem?_eq_none (by simpa using Nat.lt_of_le_of_ne h (fun hh => hj hh.symm)),
        List.getElem?_eq_none (by omega)]
  have hvalOld : ∀ j, j ≠ c.nodes.length → valAtN c₃.nodes j = valAtN c.nodes j := by
    intro j hj
    rw [hvalNew j]
    rcases Nat.lt_or_ge j c.nodes.length with h | h
    · exact valAtN_append _ h
    · unfold valAtN
      rw [List.getElem?_eq_none (by simpa using Nat.lt_of_le_of_ne h (fun hh => hj hh.symm)),
        List.getElem?_eq_none (by omega)]
  have hkeyFresh : k ∉ c.cache.map Prod.fst := by
    intro h
    obtain ⟨p, hp, hpk⟩ := List.mem_map.mp h
    exact (dictGet_eq_none_iff.mp hk p hp) hpk
  refine ⟨{ c₃ with metrics := { c₃.metrics with cache_size := c₃.cache.length } },
    ?_, ?_, ?_, ?_, ?_, ?_, ?_, ?_, ?_⟩
  · unfold put
    simp only [hk]
    rw [if_neg (not_le.mpr hcap)]
    simp only [Option.bind_eq_bind, Option.pure_def, Option.some_bind]
    rw [hadd]
    simp only [Option.some_bind]
  · -- well-formedness at the new interior list
    refine ⟨by exact hchain₃, by exact hnd₃, ?_, ?_, ?_⟩
    · show (c₃.cache : List (String × Nat)).Perm _
      rw [hcache₃]
      show (c.cache ++ [(k, c.nodes.length)]).Perm
        ((c.nodes.length :: l).map fun i =>
          (keyAtN ({ c₃ with metrics := { c₃.metrics with cache_size := c₃.cache.length } }
            : LRUCache V).nodes i, i))
      have hmapeq : (l.map fun i => (keyAtN c₃.nodes i, i)) =
          (l.map fun i => (keyAtN c.nodes i, i)) :=
        List.map_congr_left (fun j hj => by
          rw [hkeyOld j (fun h => absurd (hboundAll j (by simp [hj])) (by rw [h]; exact lt_irrefl _))])
      refine (List.perm_append_singleton _ _).trans ?_
      show ((k, c.nodes.length) :: c.cache : List (String × Nat)).Perm _
      simp only [List.map_cons]
      rw [show keyAtN ({ c₃ with metrics := { c₃.metrics with cache_size := c₃.cache.length } }
            : LRUCache V).nodes = keyAtN c₃.nodes from rfl]
      rw [hkeyNew c.nodes.length, hkeyAtNew, hmapeq]
      exact (hw.perm).cons _
    · show (c₃.cache.map Prod.fst).Nodup
      rw [hcache₃]
      simp only [List.map_append, List.map_cons, List.map_nil]
      rw [List.nodup_append]
      exact ⟨hw.keysNodup, by simp, by simpa using hkeyFresh⟩
    · intro j hj
      rcases List.mem_cons.mp hj with rfl | hj'
      · show (valAtN c₃.nodes c.nodes.length).isSome = true
        rw [hvalNew _, hvalAtNew]
        rfl
      · show (valAtN c₃.nodes j).isSome = true
        rw [hvalOld j (fun h => absurd (hboundAll j (by simp [hj'])) (by rw [h]; exact lt_irrefl _))]
        exact hw.vals j hj'
  · exact hcache₃
  · exact hcap₃
  · rw [show ({ c₃ with metrics := { c₃.metrics with cache_size := c₃.cache.length } }
      : LRUCache V).nodes = c₃.nodes from rfl, hlen₃]
    simp
  · rw [show ({ c₃ with metrics := { c₃.metrics with cache_size := c₃.cache.length } }
      : LRUCache V).nodes = c₃.nodes from rfl, hkeyNew _, hkeyAtNew]
  · rw [show ({ c₃ with metrics := { c₃.metrics with cache_size := c₃.cache.length } }
      : LRUCache V).nodes = c₃.nodes from rfl, hvalNew _, hvalAtNew]
  · intro j hj
    exact ⟨hkeyOld j hj, hvalOld j hj⟩
  · show { c₃.metrics with cache_size := c₃.cache.length } = _
    rw [hmet₃, hcache₃]
    simp

/-- `_remove_node` on an interior node, phrased on the canonical chain shape. -/
theorem _remove_interior_spec {c : LRUCache V} {l₁ l₂ : List Nat} {i : Nat}
    (hc : List.Chain' (linked c.nodes) (0 :: (l₁ ++ i :: l₂) ++ [1]))
    (hd : (0 :: (l₁ ++ i :: l₂) ++ [1]).Nodup) :
    ∃ c', c._remove_node i = some c' ∧
      List.Chain' (linked c'.nodes) (0 :: (l₁ ++ l₂) ++ [1]) ∧
      (0 :: (l₁ ++ l₂) ++ [1] : List Nat).Nodup ∧
      c'.nodes.length = c.nodes.length ∧
      (∀ j, keyAtN c'.nodes j = keyAtN c.nodes j) ∧
      (∀ j, valAtN c'.nodes j = valAtN c.nodes j) ∧
      c'.cache = c.cache ∧ c'.metrics = c.metrics ∧ c'.capacity = c.capacity := by
  have hdl := (nodup_pull_mid hd).2
  obtain ⟨xs, a, hxa⟩ : ∃ xs a, (0 :: l₁ : List Nat) = xs ++ [a] := by
    rcases List.eq_nil_or_concat (0 :: l₁) with h | ⟨xs, a, h⟩
    · exact absurd h (by simp)
    · exact ⟨xs, a, by rw [h, List.concat_eq_append]⟩
  obtain ⟨b, ys, hbys⟩ : ∃ b ys, (l₂ ++ [1] : List Nat) = b :: ys := by
    cases l₂ with
    | nil => exact ⟨1, [], rfl⟩
    | cons m M' => exact ⟨m, M' ++ [1], List.cons_append m M' [1]⟩
  have hshape : (0 :: (l₁ ++ i :: l₂) ++ [1] : List Nat) = xs ++ a :: i :: b :: ys := by
    have h0 : (0 :: (l₁ ++ i :: l₂) ++ [1] : List Nat) = (0 :: l₁) ++ i :: (l₂ ++ [1]) := by
      simp
    rw [h0, hxa, hbys]
    simp
  rw [hshape] at hc hd
  obtain ⟨c₁, hrm, hc₁, hlen₁, hkey₁, hval₁, hcache₁, hmet₁, hcap₁⟩ :=
    _remove_node_spec hc hd
  have hshape₂ : (xs ++ a :: b :: ys : List Nat) = 0 :: (l₁ ++ l₂) ++ [1] := by
    have h0 : (0 :: (l₁ ++ l₂) ++ [1] : List Nat) = (0 :: l₁) ++ (l₂ ++ [1]) := by
      simp
    rw [h0, hxa, hbys]
    simp
  rw [hshape₂] at hc₁
  exact ⟨c₁, hrm, hc₁, hdl, hlen₁, hkey₁, hval₁, hcache₁, hmet₁, hcap₁⟩

/-- `delete` on an absent key changes nothing and returns `false`. -/
theorem delete_spec_absent {c : LRUCache V} {k : String}
    (hk : dictGet k c.cache = none) :
    c.delete k = some (false, c) := by
  unfold delete
  simp only [hk]

/-- `delete` on a resident key unlinks the node, drops the dict binding,
refreshes `cache_size`, and returns `true`. -/
theorem delete_spec_present {c : LRUCache V} {l₁ l₂ : List Nat} {i : Nat} {k : String}
    (hw : WFL c (l₁ ++ i :: l₂)) (hk : dictGet k c.cache = some i) :
    ∃ c', c.delete k = some (true, c') ∧
      WFL c' (l₁ ++ l₂) ∧
      c'.cache = c.cache.filter (fun p => p.1 ≠ k) ∧
      c'.cache.length = c.cache.length - 1 ∧
      c'.capacity = c.capacity ∧
      c'.nodes.length = c.nodes.length ∧
      (∀ j, keyAtN c'.nodes j = keyAtN c.nodes j) ∧
      (∀ j, valAtN c'.nodes j = valAtN c.nodes j) ∧
      c'.metrics = { c.metrics with cache_size := c.cache.length - 1 } := by
  have hki : keyAtN c.nodes i = k := (hw.dictGet_some_iff.mp hk).2
  have hiNotIn := (nodup_pull_mid hw.nodupIdx).1
  obtain ⟨c₁, hrm, hc₁, hnd₁, hlen₁, hkey₁, hval₁, hcache₁, hmet₁, hcap₁⟩ :=
    _remove_interior_spec hw.chain hw.nodupIdx
  have hdel : dictDel k c.cache = some (c.cache.filter (fun p => p.1 ≠ k)) := by
    unfold dictDel
    rw [hk]
  have hkeysne : ∀ j ∈ l₁ ++ l₂, keyAtN c.nodes j ≠ k := by
    intro j hj hkj
    have hnd := hw.keyList_nodup
    have hperm : ((l₁ ++ i :: l₂).map (keyAtN c.nodes)).Perm
        (keyAtN c.nodes i :: ((l₁ ++ l₂).map (keyAtN c.nodes))) := by
      have := (@List.perm_middle Nat i l₁ l₂).map (keyAtN c.nodes)
      simpa using this
    have hnd' := hperm.nodup_iff.mp hnd
    rw [List.nodup_cons] at hnd'
    exact hnd'.1 (hki ▸ hkj ▸ List.mem_map.mpr ⟨j, hj, rfl⟩)
  have hfilter : ((l₁ ++ i :: l₂).map fun j => (keyAtN c.nodes j, j)).filter
      (fun p => p.1 ≠ k) = (l₁ ++ l₂).map fun j => (keyAtN c.nodes j, j) := by
    simp only [List.map_append, List.map_cons, List.filter_append, List.filter_cons]
    rw [if_neg (by simp [hki]), List.filter_eq_self.mpr, List.filter_eq_self.mpr]
    · intro p hp
      obtain ⟨j, hj, rfl⟩ := List.mem_map.mp hp
      simpa using hkeysne j (List.mem_append.mpr (Or.inr hj))
    · intro p hp
      obtain ⟨j, hj, rfl⟩ := List.mem_map.mp hp
      simpa using hkeysne j (List.mem_append.mpr (Or.inl hj))
  have hmperm : (c.cache.filter (fun p => p.1 ≠ k)).Perm
      ((l₁ ++ l₂).map fun j => (keyAtN c.nodes j, j)) := by
    refine (hw.perm.filter _).trans ?_
    rw [hfilter]
  refine ⟨{ c₁ with
      cache := c.cache.filter (fun p => p.1 ≠ k),
      metrics := { c₁.metrics with
        cache_size := (c.cache.filter (fun p => p.1 ≠ k)).length } },
    ?_, ?_, rfl, ?_, ?_, ?_, ?_, ?_, ?_⟩
  · unfold delete
    simp only [hk, Option.bind_eq_bind, Option.some_bind]
    rw [hrm]
    simp only [Option.some_bind]
    rw [hcache₁, hdel]
    simp only [Option.some_bind, Option.pure_def]
  · refine ⟨by exact hc₁, by exact hnd₁, ?_, ?_, ?_⟩
    · show (c.cache.filter (fun p => p.1 ≠ k)).Perm
        ((l₁ ++ l₂).map fun j => (keyAtN c₁.nodes j, j))
      have hmapeq : ((l₁ ++ l₂).map fun j => (keyAtN c₁.nodes j, j)) =
          ((l₁ ++ l₂).map fun j => (keyAtN c.nodes j, j)) :=
        List.map_congr_left (fun j _ => by rw [hkey₁ j])
      rw [hmapeq]
      exact hmperm
    · show ((c.cache.filter (fun p => p.1 ≠ k)).map Prod.fst).Nodup
      exact hw.keysNodup.sublist ((List.filter_sublist _).map Prod.fst)
    · intro j hj
      show (valAtN c₁.nodes j).isSome = true
      rw [hval₁ j]
      refine hw.vals j ?_
      rcases List.mem_append.mp hj with h | h
      · exact List.mem_append.mpr (Or.inl h)
      · exact List.mem_append.mpr (Or.inr (List.mem_cons_of_mem i h))
  · show (c.cache.filter (fun p => p.1 ≠ k)).length = c.cache.length - 1
    rw [hmperm.length_eq, hw.length_eq]
    simp
  · exact hcap₁
  · exact hlen₁
  · exact hkey₁
  · exact hval₁
  · show ({ c₁.metrics with
        cache_size := (c.cache.filter (fun p => p.1 ≠ k)).length } : CacheMetrics) = _
    rw [hmet₁, hmperm.length_eq]
    have hl : ((l₁ ++ l₂).map fun j => (keyAtN c.nodes j, j)).length = c.cache.length - 1 := by
      rw [List.length_map, hw.length_eq]
      simp
    rw [hl]

/-- `clear` empties the dict, relinks the sentinels, zeroes `cache_size`,
and leaves everything else (counters included) alone. -/
theorem clear_spec {c : LRUCache V} {l : List Nat} (hw : WFL c l) :
    ∃ c', c.clear = some c' ∧ WFL c' [] ∧
      c'.cache = [] ∧ c'.capacity = c.capacity ∧
      c'.nodes.length = c.nodes.length ∧
      c'.metrics = { c.metrics with cache_size := 0 } := by
  have h0lt : 0 < c.nodes.length := hw.lt_length 0 (by simp)
  have h1lt : 1 < c.nodes.length := hw.lt_length 1 (by simp)
  obtain ⟨h₀, hh₀⟩ : ∃ h₀, c.nodes[0]? = some h₀ :=
    ⟨c.nodes.get ⟨0, h0lt⟩, List.getElem?_eq_getElem h0lt⟩
  obtain ⟨t₀, ht₀⟩ : ∃ t₀, c.nodes[1]? = some t₀ :=
    ⟨c.nodes.get ⟨1, h1lt⟩, List.getElem?_eq_getElem h1lt⟩
  refine ⟨{
      capacity := c.capacity,
      nodes := (c.nodes.set 0 { h₀ with next := some 1 }).set 1 { t₀ with prev := some 0 },
      cache := [],
      metrics := { c.metrics with cache_size := 0 } }, ?_, ?_, rfl, rfl, by simp, rfl⟩
  · unfold clear node?
    show (c.nodes[0]?.bind fun hd => _) = _
    rw [hh₀]
    simp only [Option.bind_eq_bind, Option.some_bind, setNode_nodes]
    rw [List.getElem?_set_ne (by omega : (0 : Nat) ≠ 1), ht₀]
    simp only [Option.some_bind, Option.pure_def]
    rfl
  · refine ⟨?_, by simp, by simp, by simp, by simp⟩
    show List.Chain' _ (0 :: [1])
    rw [List.chain'_cons]
    have hA : ((c.nodes.set 0 { h₀ with next := some 1 }).set 1
        { t₀ with prev := some 0 })[0]? = some { h₀ with next := some 1 } := by
      rw [List.getElem?_set_ne (by omega : (1 : Nat) ≠ 0)]
      exact List.getElem?_set_eq_of_lt _ h0lt
    have hB : ((c.nodes.set 0 { h₀ with next := some 1 }).set 1
        { t₀ with prev := some 0 })[1]? = some { t₀ with prev := some 0 } := by
      exact List.getElem?_set_eq_of_lt _ (by simpa using h1lt)
    exact ⟨⟨⟨_, hA, rfl⟩, ⟨_, hB, rfl⟩⟩, List.chain'_singleton 1⟩

/-- `put` of a fresh key at (or above) capacity: `_pop_tail` yields the
tail-most interior node, whose dict binding is removed and `evictions`
bumped, before the new node is inserted at the head.  The net entry count
is unchanged. -/
theorem put_evict_spec {c : LRUCache V} {l' : List Nat} {jt : Nat} {k : String}
    {v : V} {now : Nat}
    (hw : WFL c (l' ++ [jt])) (hk : dictGet k c.cache = none)
    (hcap : c.capacity ≤ c.cache.length) :
    ∃ c', c.put k v now = some (true, c') ∧
      WFL c' (c.nodes.length :: l') ∧
      c'.cache = c.cache.filter (fun p => p.1 ≠ keyAtN c.nodes jt) ++
        [(k, c.nodes.length)] ∧
      c'.cache.length = c.cache.length ∧
      c'.capacity = c.capacity ∧
      c'.nodes.length = c.nodes.length + 1 ∧
      keyAtN c'.nodes c.nodes.length = k ∧
      valAtN c'.nodes c.nodes.length = some v ∧
      (∀ j, j ≠ c.nodes.length →
        keyAtN c'.nodes j = keyAtN c.nodes j ∧ valAtN c'.nodes j = valAtN c.nodes j) ∧
      c'.metrics = { c.metrics with
        evictions := c.metrics.evictions + 1,
        cache_size := c.cache.length } ∧
      (∃ cmid, ({ c with nodes := c.nodes ++ [⟨k, some v, none, none, now⟩] }
        : LRUCache V)._pop_tail = some (some jt, cmid)) := by
  have hboundAll := hw.lt_length
  have hjtLt : jt < c.nodes.length := hboundAll jt (by simp)
  -- the state with the fresh node appended keeps the chain intact
  have hchain₁ : List.Chain' (linked
      ({ c with nodes := c.nodes ++ [⟨k, some v, none, none, now⟩] } : LRUCache V).nodes)
      (0 :: (l' ++ [jt]) ++ [1]) := by
    refine (chain'_linked_congr ?_).mpr hw.chain
    intro j hj
    exact ptrAt_append _ (hboundAll j hj)
  obtain ⟨c₂, hpop, hchain₂, hnd₂, hlen₂, hkey₂, hval₂, hcache₂, hmet₂, hcap₂⟩ :=
    _pop_tail_spec (c := { c with nodes := c.nodes ++ [⟨k, some v, none, none, now⟩] })
      hchain₁ hw.nodupIdx
  have hlen₂' : c₂.nodes.length = c.nodes.length + 1 := by
    rw [hlen₂]
    simp
  have hkey₂' : ∀ j, j < c.nodes.length → keyAtN c₂.nodes j = keyAtN c.nodes j := by
    intro j hj
    rw [hkey₂ j]
    exact keyAtN_append _ hj
  have hval₂' : ∀ j, j < c.nodes.length → valAtN c₂.nodes j = valAtN c.nodes j := by
    intro j hj
    rw [hval₂ j]
    exact valAtN_append _ hj
  obtain ⟨tn, htn⟩ : ∃ tn, c₂.nodes[jt]? = some tn :=
    ⟨c₂.nodes.get ⟨jt, by omega⟩, List.getElem?_eq_getElem (by omega)⟩
  have htnkey : tn.key = keyAtN c.nodes jt := by
    have h := hkey₂' jt hjtLt
    unfold keyAtN at h
    rw [htn] at h
    exact h
  have hdictjt : dictGet (keyAtN c.nodes jt) c.cache = some jt :=
    hw.dictGet_some_iff.mpr ⟨by simp, rfl⟩
  have hdel : dictDel (keyAtN c.nodes jt) c.cache =
      some (c.cache.filter (fun p => p.1 ≠ keyAtN c.nodes jt)) := by
    unfold dictDel
    rw [hdictjt]
  -- the filtered dict corresponds to the shortened interior list
  have hkeysne : ∀ j ∈ l', keyAtN c.nodes j ≠ keyAtN c.nodes jt := by
    intro j hj hkj
    have hnd := hw.keyList_nodup
    simp only [List.map_append, List.map_cons, List.map_nil] at hnd
    rw [List.nodup_append] at hnd
    exact hnd.2.2 (List.mem_map.mpr ⟨j, hj, hkj⟩) (by simp)
  have hfilter : ((l' ++ [jt]).map fun j => (keyAtN c.nodes j, j)).filter
      (fun p => p.1 ≠ keyAtN c.nodes jt) = l'.map fun j => (keyAtN c.nodes j, j) := by
    simp only [List.map_append, List.map_cons, List.map_nil, List.filter_append,
      List.filter_cons]
    rw [if_neg (by simp), List.filter_eq_self.mpr]
    · simp
    · intro p hp
      obtain ⟨j, hj, rfl⟩ := List.mem_map.mp hp
      simpa using hkeysne j hj
  have hmperm : (c.cache.filter (fun p => p.1 ≠ keyAtN c.nodes jt)).Perm
      (l'.map fun j => (keyAtN c.nodes j, j)) := by
    refine (hw.perm.filter _).trans ?_
    rw [hfilter]
  have hmlen : (c.cache.filter (fun p => p.1 ≠ keyAtN c.nodes jt)).length
      = c.cache.length - 1 := by
    rw [hmperm.length_eq, List.length_map, hw.length_eq]
    simp
  have hclen : 1 ≤ c.cache.length := by
    rw [hw.length_eq]
    simp
  -- the post-eviction, pre-insertion state
  have hNfresh : c.nodes.length ∉ (0 :: l' ++ [1] : List Nat) := by
    intro h
    have hsub : c.nodes.length ∈ (0 :: (l' ++ [jt]) ++ [1] : List Nat) := by
      simp only [List.mem_cons, List.mem_append] at h ⊢
      tauto
    exact absurd (hboundAll _ hsub) (lt_irrefl _)
  have hchain₄ : List.Chain' (linked
      ({ c₂ with
          cache := (c.cache.filter (fun p => p.1 ≠ keyAtN c.nodes jt)) ++
            [(k, c.nodes.length)],
          metrics := { c₂.metrics with evictions := c₂.metrics.evictions + 1 } }
        : LRUCache V).nodes)
      (0 :: l' ++ [1]) := hchain₂
  obtain ⟨c₅, hadd, hchain₅, hnd₅, hlen₅, hkey₅, hval₅, hcache₅, hmet₅, hcap₅⟩ :=
    _add_node_spec (M := l') hchain₄ hnd₂ (by rw [hlen₂']; omega) hNfresh
  have hkeyAtNew : keyAtN c₂.nodes c.nodes.length = k := by
    rw [hkey₂ _]
    unfold keyAtN
    rw [List.getElem?_concat_length]
  have hvalAtNew : valAtN c₂.nodes c.nodes.length = some v := by
    rw [hval₂ _]
    unfold valAtN
    rw [List.getElem?_concat_length]
  have hkeyOld : ∀ j, j ≠ c.nodes.length → keyAtN c₅.nodes j = keyAtN c.nodes j := by
    intro j hj
    rw [hkey₅ j]
    show keyAtN c₂.nodes j = keyAtN c.nodes j
    rcases Nat.lt_or_ge j c.nodes.length with h | h
    · exact hkey₂' j h
    · rw [hkey₂ j]
      unfold keyAtN
      rw [List.getElem?_eq_none (by simpa using Nat.lt_of_le_of_ne h (fun hh => hj hh.symm)),
        List.getElem?_eq_none (by omega)]
  have hvalOld : ∀ j, j ≠ c.nodes.length → valAtN c₅.nodes j = valAtN c.nodes j := by
    intro j hj
    rw [hval₅ j]
    show valAtN c₂.nodes j = valAtN c.nodes j
    rcases Nat.lt_or_ge j c.nodes.length with h | h
    · exact hval₂' j h
    · rw [hval₂ j]
      unfold valAtN
      rw [List.getElem?_eq_none (by simpa using Nat.lt_of_le_of_ne h (fun hh => hj hh.symm)),
        List.getElem?_eq_none (by omega)]
  have hkeyFresh : k ∉ (c.cache.filter (fun p => p.1 ≠ keyAtN c.nodes jt)).map Prod.fst := by
    intro h
    obtain ⟨p, hp, hpk⟩ := List.mem_map.mp h
    exact (dictGet_eq_none_iff.mp hk p (List.mem_of_mem_filter hp)) hpk
  refine ⟨{ c₅ with metrics := { c₅.metrics with cache_size := c₅.cache.length } },
    ?_, ?_, ?_, ?_, ?_, ?_, ?_, ?_, ?_, ?_, ⟨c₂, hpop⟩⟩
  · unfold put
    simp only [hk]
    rw [if_pos hcap]
    simp only [Option.bind_eq_bind, Option.some_bind]
    rw [hpop]
    simp only [Option.some_bind]
    show ((c₂.nodes[jt]?).bind fun tn => _) = _
    rw [htn]
    simp only [Option.some_bind, htnkey, hcache₂]
    rw [hdel]
    simp only [Option.some_bind, Option.pure_def, Option.bind_eq_bind]
    rw [hadd]
    simp only [Option.some_bind]
  · -- well-formedness at the new interior list
    refine ⟨by exact hchain₅, by exact hnd₅, ?_, ?_, ?_⟩
    · show (c₅.cache : List (String × Nat)).Perm _
      rw [hcache₅]
      show ((c.cache.filter (fun p => p.1 ≠ keyAtN c.nodes jt)) ++
        [(k, c.nodes.length)] : List (String × Nat)).Perm
        ((c.nodes.length :: l').map fun i => (keyAtN c₅.nodes i, i))
      have hmapeq : (l'.map fun i => (keyAtN c₅.nodes i, i)) =
          (l'.map fun i => (keyAtN c.nodes i, i)) :=
        List.map_congr_left (fun j hj => by
          rw [hkeyOld j (fun h => absurd (hboundAll j (by simp [hj])) (by rw [h]; exact lt_irrefl _))])
      refine (List.perm_append_singleton _ _).trans ?_
      simp only [List.map_cons]
      rw [hmapeq, hkey₅ _]
      show ((k, c.nodes.length) :: c.cache.filter (fun p => p.1 ≠ keyAtN c.nodes jt)
        : List (String × Nat)).Perm ((keyAtN c₂.nodes c.nodes.length, c.nodes.length) :: _)
      rw [hkeyAtNew]
      exact hmperm.cons _
    · show (c₅.cache.map Prod.fst).Nodup
      rw [hcache₅]
      simp only [List.map_append, List.map_cons, List.map_nil]
      rw [List.nodup_append]
      refine ⟨?_, by simp, by simpa using hkeyFresh⟩
      exact hw.keysNodup.sublist ((List.filter_sublist _).map Prod.fst)
    · intro j hj
      rcases List.mem_cons.mp hj with rfl | hj'
      · show (valAtN c₅.nodes c.nodes.length).isSome = true
        rw [hval₅ _]
        show (valAtN c₂.nodes c.nodes.length).isSome = true
        rw [hvalAtNew]
        rfl
      · show (valAtN c₅.nodes j).isSome = true
        rw [hvalOld j (fun h => absurd (hboundAll j (by simp [hj'])) (by rw [h]; exact lt_irrefl _))]
        exact hw.vals j (by simp [hj'])
  · exact hcache₅
  · show c₅.cache.length = c.cache.length
    rw [hcache₅]
    simp only [List.length_append, List.length_cons, List.length_nil, hmlen]
    omega
  · show c₅.capacity = c.capacity
    rw [hcap₅]
    exact hcap₂
  · show c₅.nodes.length = c.nodes.length + 1
    rw [hlen₅]
    exact hlen₂'
  · show keyAtN c₅.nodes c.nodes.length = k
    rw [hkey₅ _]
    exact hkeyAtNew
  · show valAtN c₅.nodes c.nodes.length = some v
    rw [hval₅ _]
    exact hvalAtNew
  · intro j hj
    exact ⟨hkeyOld j hj, hvalOld j hj⟩
  · show ({ c₅.metrics with cache_size := c₅.cache.length } : CacheMetrics) = _
    rw [hmet₅]
    show ({ c₂.metrics with
      evictions := c₂.metrics.evictions + 1,
      cache_size := c₅.cache.length } : CacheMetrics) = _
    rw [hmet₂, hcache₅]
    show ({ c.metrics with
      evictions := c.metrics.evictions + 1,
      cache_size := ((c.cache.filter (fun p => p.1 ≠ keyAtN c.nodes jt)) ++
        [(k, c.nodes.length)]).length } : CacheMetrics) = _
    simp only [List.length_append, List.length_cons, List.length_nil, hmlen]
    have : c.cache.length - 1 + (0 + 1) = c.cache.length := by omega
    rw [this]

/-! ## Unconditional frame facts (no invariant needed) -/

theorem _remove_node_frame {c c' : LRUCache V} {i : Nat}
    (h : c._remove_node i = some c') :
    c'.cache = c.cache ∧ c'.metrics = c.metrics ∧ c'.capacity = c.capacity := by
  unfold _remove_node at h
  simp only [Option.bind_eq_bind, Option.bind_eq_some, Option.pure_def,
    Option.some.injEq] at h
  obtain ⟨nd, hnd, p, hp, n, hn, pn, hpn, nn, hnn, hc'⟩ := h
  subst hc'
  exact ⟨rfl, rfl, rfl⟩

theorem _add_node_frame {c c' : LRUCache V} {i : Nat}
    (h : c._add_node i = some c') :
    c'.cache = c.cache ∧ c'.metrics = c.metrics ∧ c'.capacity = c.capacity := by
  unfold _add_node at h
  simp only [Option.bind_eq_bind, Option.bind_eq_some, Option.pure_def,
    Option.some.injEq] at h
  obtain ⟨hd, hhd, f, hf, nd, hnd, fn, hfn, hd', hhd', hc'⟩ := h
  subst hc'
  exact ⟨rfl, rfl, rfl⟩

theorem _move_to_head_frame {c c' : LRUCache V} {i : Nat}
    (h : c._move_to_head i = some c') :
    c'.cache = c.cache ∧ c'.metrics = c.metrics ∧ c'.capacity = c.capacity := by
  unfold _move_to_head at h
  simp only [Option.bind_eq_bind, Option.bind_eq_some] at h
  obtain ⟨c₁, h₁, h₂⟩ := h
  obtain ⟨ha, hb, hcp⟩ := _remove_node_frame h₁
  obtain ⟨ha', hb', hcp'⟩ := _add_node_frame h₂
  exact ⟨ha'.trans ha, hb'.trans hb, hcp'.trans hcp⟩

theorem _pop_tail_frame {c c' : LRUCache V} {r : Option Nat}
    (h : c._pop_tail = some (r, c')) :
    c'.cache = c.cache ∧ c'.metrics = c.metrics ∧ c'.capacity = c.capacity := by
  unfold _pop_tail at h
  simp only [Option.bind_eq_bind, Option.bind_eq_some] at h
  obtain ⟨tl, htl, h⟩ := h
  rcases hmatch : tl.prev with _ | last
  · rw [hmatch] at h
    simp at h
  · rw [hmatch] at h
    dsimp only at h
    by_cases hl : last = 0
    · subst hl
      rw [if_pos rfl] at h
      simp only [Option.pure_def, Option.some.injEq, Prod.mk.injEq] at h
      obtain ⟨h1, h2⟩ := h
      subst h2
      exact ⟨rfl, rfl, rfl⟩
    · rw [if_neg hl] at h
      simp only [Option.bind_eq_bind, Option.bind_eq_some, Option.pure_def,
        Option.some.injEq, Prod.mk.injEq] at h
      obtain ⟨c₁, h₁, h2, h3⟩ := h
      subst h3
      exact _remove_node_frame h₁

/-- `get` always bumps `total_requests` by one and bumps exactly one of
`hits`/`misses`; it never touches `evictions`, the dict, or the capacity,
and on a hit the dict is also untouched. -/
theorem get_counters {c c' : LRUCache V} {k : String} {r : Option V}
    (h : c.get k = some (r, c')) :
    c'.metrics.total_requests = c.metrics.total_requests + 1 ∧
    c'.metrics.hits + c'.metrics.misses = c.metrics.hits + c.metrics.misses + 1 ∧
    c'.metrics.evictions = c.metrics.evictions ∧
    c'.metrics.cache_size = c.metrics.cache_size ∧
    c'.metrics.max_size = c.metrics.max_size ∧
    c'.cache = c.cache ∧ c'.capacity = c.capacity := by
  unfold get at h
  dsimp only at h
  rcases hd : dictGet k c.cache with _ | i
  · rw [hd] at h
    dsimp only at h
    simp only [Option.pure_def, Option.some.injEq, Prod.mk.injEq] at h
    obtain ⟨h1, hc⟩ := h
    subst hc
    refine ⟨rfl, ?_, rfl, rfl, rfl, rfl, rfl⟩
    show c.metrics.hits + (c.metrics.misses + 1) = c.metrics.hits + c.metrics.misses + 1
    omega
  · rw [hd] at h
    dsimp only at h
    simp only [Option.bind_eq_bind, Option.bind_eq_some, Option.pure_def,
      Option.some.injEq, Prod.mk.injEq] at h
    obtain ⟨c₁, h₁, nd, hnd, h2, hc⟩ := h
    subst hc
    obtain ⟨ha, hb, hcp⟩ := _move_to_head_frame h₁
    refine ⟨by simp [hb], by simp [hb]; omega, by simp [hb], by simp [hb],
      by simp [hb], by simp [ha], by simp [hcp]⟩

/-- Computation shape of `put` on a fresh key. -/
theorem put_insert_unfold {V : Type} {c : LRUCache V} {k : String} {v : V} {now : Nat}
    (hk : dictGet k c.cache = none) :
    c.put k v now = (do
      let c₁ : LRUCache V := { c with nodes := c.nodes ++ [⟨k, some v, none, none, now⟩] }
      let c₂ ←
        if c₁.cache.length ≥ c₁.capacity then do
          let (popped, cp) ← c₁._pop_tail
          match popped with
          | some ti => do
            let tn ← cp.node? ti
            let m ← dictDel tn.key cp.cache
            pure { cp with cache := m, metrics.evictions := cp.metrics.evictions + 1 }
          | none => pure cp
        else pure c₁
      let c₃ : LRUCache V := { c₂ with cache := c₂.cache ++ [(k, c.nodes.length)] }
      let c₄ ← c₃._add_node c.nodes.length
      return (true, { c₄ with metrics.cache_size := c₄.cache.length })) := by
  unfold put
  rw [hk]

theorem put_update_unfold {V : Type} {c : LRUCache V} {k : String} {v : V} {now : Nat} {i : Nat}
    (hk : dictGet k c.cache = some i) :
    c.put k v now = (do
      let nd ← c.node? i
      let cS := c.setNode i { nd with value := some v, timestamp := now }
      let c₁ ← cS._move_to_head i
      return (false, c₁)) := by
  unfold put
  rw [hk]


/-- `put` never touches `hits`, `misses` or `total_requests`, nor the
capacity. -/
theorem put_hmt_frame {c c' : LRUCache V} {k : String} {v : V} {now : Nat} {b : Bool}
    (h : c.put k v now = some (b, c')) :
    c'.metrics.hits = c.metrics.hits ∧
    c'.metrics.misses = c.metrics.misses ∧
    c'.metrics.total_requests = c.metrics.total_requests ∧
    c'.capacity = c.capacity := by
  rcases hd : dictGet k c.cache with _ | i
  · rw [put_insert_unfold hd] at h
    dsimp only at h
    split at h
    · simp only [Option.bind_eq_bind, Option.bind_eq_some] at h
      obtain ⟨⟨popped, cpop⟩, hpop, h⟩ := h
      obtain ⟨hpc, hpm, hpcap⟩ := _pop_tail_frame hpop
      rcases popped with _ | ti
      · simp only [Option.pure_def, Option.some_bind, Option.bind_eq_some,
          Option.some.injEq, Prod.mk.injEq] at h
        obtain ⟨c₄, hadd, hbool, hc⟩ := h
        subst hc
        obtain ⟨ha, hb2, hcp⟩ := _add_node_frame hadd
        refine ⟨?_, ?_, ?_, ?_⟩
        · show c₄.metrics.hits = _
          rw [hb2]
          show cpop.metrics.hits = _
          rw [hpm]
        · show c₄.metrics.misses = _
          rw [hb2]
          show cpop.metrics.misses = _
          rw [hpm]
        · show c₄.metrics.total_requests = _
          rw [hb2]
          show cpop.metrics.total_requests = _
          rw [hpm]
        · show c₄.capacity = _
          rw [hcp]
          show cpop.capacity = _
          rw [hpcap]
      · simp only [Option.pure_def, Option.some_bind, Option.bind_eq_bind,
          Option.bind_eq_some, Option.some.injEq, Prod.mk.injEq] at h
        obtain ⟨tn, htn, m, hm, c₄, hadd, hbool, hc⟩ := h
        subst hc
        obtain ⟨ha, hb2, hcp⟩ := _add_node_frame hadd
        refine ⟨?_, ?_, ?_, ?_⟩
        · show c₄.metrics.hits = _
          rw [hb2]
          show cpop.metrics.hits = _
          rw [hpm]
        · show c₄.metrics.misses = _
          rw [hb2]
          show cpop.metrics.misses = _
          rw [hpm]
        · show c₄.metrics.total_requests = _
          rw [hb2]
          show cpop.metrics.total_requests = _
          rw [hpm]
        · show c₄.capacity = _
          rw [hcp]
          show cpop.capacity = _
          rw [hpcap]
    · simp only [Option.pure_def, Option.some_bind, Option.bind_eq_bind,
        Option.bind_eq_some, Option.some.injEq, Prod.mk.injEq] at h
      obtain ⟨c₄, hadd, hbool, hc⟩ := h
      subst hc
      obtain ⟨ha, hb2, hcp⟩ := _add_node_frame hadd
      refine ⟨?_, ?_, ?_, ?_⟩
      · show c₄.metrics.hits = _
        rw [hb2]
      · show c₄.metrics.misses = _
        rw [hb2]
      · show c₄.metrics.total_requests = _
        rw [hb2]
      · show c₄.capacity = _
        rw [hcp]
  · rw [put_update_unfold hd] at h
    simp only [Option.bind_eq_bind, Option.bind_eq_some, Option.pure_def,
      Option.some.injEq, Prod.mk.injEq] at h
    obtain ⟨nd, hnd, c₁, h₁, hbool, hc⟩ := h
    subst hc
    obtain ⟨ha, hb2, hcp⟩ := _move_to_head_frame h₁
    simp [hb2, hcp]

/-- `delete` never touches `hits`, `misses`, `evictions` or
`total_requests`, nor the capacity. -/
theorem delete_hme_frame {c c' : LRUCache V} {k : String} {b : Bool}
    (h : c.delete k = some (b, c')) :
    c'.metrics.hits = c.metrics.hits ∧
    c'.metrics.misses = c.metrics.misses ∧
    c'.metrics.evictions = c.metrics.evictions ∧
    c'.metrics.total_requests = c.metrics.total_requests ∧
    c'.capacity = c.capacity := by
  rcases hd : dictGet k c.cache with _ | i
  · unfold delete at h
    rw [hd] at h
    simp only [Option.some.injEq, Prod.mk.injEq] at h
    obtain ⟨hbool, hc⟩ := h
    subst hc
    exact ⟨rfl, rfl, rfl, rfl, rfl⟩
  · unfold delete at h
    rw [hd] at h
    dsimp only at h
    simp only [Option.bind_eq_bind, Option.bind_eq_some, Option.pure_def,
      Option.some.injEq, Prod.mk.injEq] at h
    obtain ⟨c₁, h₁, m, hm, hbool, hc⟩ := h
    subst hc
    obtain ⟨ha, hb, hcp⟩ := _remove_node_frame h₁
    simp [hb, hcp]

/-- `clear` never touches `hits`, `misses`, `evictions` or
`total_requests`, nor the capacity. -/
theorem clear_hme_frame {c c' : LRUCache V}
    (h : c.clear = some c') :
    c'.metrics.hits = c.metrics.hits ∧
    c'.metrics.misses = c.metrics.misses ∧
    c'.metrics.evictions = c.metrics.evictions ∧
    c'.metrics.total_requests = c.metrics.total_requests ∧
    c'.metrics.max_size = c.metrics.max_size ∧
    c'.capacity = c.capacity := by
  unfold clear at h
  simp only [Option.bind_eq_bind, Option.bind_eq_some, Option.pure_def,
    Option.some.injEq] at h
  obtain ⟨hd, hhd, tl, htl, hc⟩ := h
  subst hc
  exact ⟨rfl, rfl, rfl, rfl, rfl, rfl⟩

end LRUCache

/-! ## The external interface as a transition system -/

/-- One call of the external interface; the `time()` value a `put` observes
is threaded in as data. -/
inductive COp (V : Type) where
  | getOp (k : String)
  | putOp (k : String) (v : V) (now : Nat)
  | deleteOp (k : String)
  | clearOp
  | sizeOp
  | metricsOp
deriving Repr, DecidableEq

/-- The observable outcome of one call. -/
inductive CObs (V : Type) where
  | retVal (r : Option V)
  | retBool (b : Bool)
  | retUnit
  | retNat (n : Nat)
  | retMetrics (m : CacheMetrics)
deriving Repr, DecidableEq

namespace LRUCache

/-- Dispatch one interface call; `none` is a Python exception. -/
def step (c : LRUCache V) : COp V → Option (CObs V × LRUCache V)
  | .getOp k => (c.get k).map fun p => (.retVal p.1, p.2)
  | .putOp k v now => (c.put k v now).map fun p => (.retBool p.1, p.2)
  | .deleteOp k => (c.delete k).map fun p => (.retBool p.1, p.2)
  | .clearOp => (c.clear).map fun c' => (.retUnit, c')
  | .sizeOp => some (.retNat c.size, c)
  | .metricsOp => some (.retMetrics c.get_metrics.1, c.get_metrics.2)

/-- Run a sequence of interface calls, collecting the observables. -/
def run (c : LRUCache V) : List (COp V) → Option (List (CObs V) × LRUCache V)
  | [] => some ([], c)
  | op :: ops => do
    let (o, c') ← c.step op
    let (os, c'') ← c'.run ops
    return (o :: os, c'')

end LRUCache

/-- States reachable from a valid construction: positive capacity, entry
count within capacity, and a well-formed recency structure. -/
def SInv {V : Type} (c : LRUCache V) : Prop :=
  1 ≤ c.capacity ∧ c.cache.length ≤ c.capacity ∧ ∃ l, WFL c l
namespace LRUCache

variable {V : Type}

/-- From any reachable state, every single call succeeds and re-establishes
the invariant; the capacity never changes. -/
theorem step_total_SInv {c : LRUCache V} (hs : SInv c) (op : COp V) :
    ∃ o c', c.step op = some (o, c') ∧ SInv c' ∧ c'.capacity = c.capacity := by
  obtain ⟨hcap1, hlen, l, hw⟩ := hs
  cases op with
  | getOp k =>
    rcases hd : dictGet k c.cache with _ | i
    · refine ⟨CObs.retVal none, { c with metrics := { c.metrics with
        total_requests := c.metrics.total_requests + 1,
        misses := c.metrics.misses + 1 } }, ?_, ⟨hcap1, hlen, l, hw.congr rfl rfl⟩, rfl⟩
      show (c.get k).map _ = _
      rw [get_spec_miss hd]
      rfl
    · have hi : i ∈ l := (hw.dictGet_some_iff.mp hd).1
      obtain ⟨l₁, l₂, rfl⟩ := List.append_of_mem hi
      obtain ⟨c', hget, hw', hcache', hcap', -⟩ := get_spec_hit hw hd
      refine ⟨CObs.retVal (valAtN c.nodes i), c', ?_, ⟨by omega, ?_, _, hw'⟩, hcap'⟩
      · show (c.get k).map _ = _
        rw [hget]
        rfl
      · rw [hcache', hcap']
        exact hlen
  | putOp k v now =>
    rcases hd : dictGet k c.cache with _ | i
    · by_cases hlt : c.cache.length < c.capacity
      · obtain ⟨c', hput, hw', hcache', hcap', -⟩ := put_new_spec hw hd hlt
        refine ⟨CObs.retBool true, c', ?_, ⟨by omega, ?_, _, hw'⟩, hcap'⟩
        · show (c.put k v now).map _ = _
          rw [hput]
          rfl
        · rw [hcache', hcap']
          simp only [List.length_append, List.length_cons, List.length_nil]
          omega
      · have hge : c.capacity ≤ c.cache.length := by omega
        obtain ⟨l', jt, hl⟩ : ∃ l' jt, l = l' ++ [jt] := by
          rcases List.eq_nil_or_concat l with h | ⟨l', jt, h⟩
          · rw [h] at hw
            have hl0 := hw.length_eq
            simp only [List.length_nil] at hl0
            exact absurd hl0 (by omega)
          · exact ⟨l', jt, by rw [h, List.concat_eq_append]⟩
        subst hl
        obtain ⟨c', hput, hw', hcache', hclen', hcap', -⟩ := put_evict_spec hw hd hge
        refine ⟨CObs.retBool true, c', ?_, ⟨by omega, by omega, _, hw'⟩, hcap'⟩
        show (c.put k v now).map _ = _
        rw [hput]
        rfl
    · have hi : i ∈ l := (hw.dictGet_some_iff.mp hd).1
      obtain ⟨l₁, l₂, rfl⟩ := List.append_of_mem hi
      obtain ⟨c', hput, hw', hcache', hcap', -⟩ := put_update_spec hw hd
      refine ⟨CObs.retBool false, c', ?_, ⟨by omega, by rw [hcache', hcap']; exact hlen, _, hw'⟩,
        hcap'⟩
      show (c.put k v now).map _ = _
      rw [hput]
      rfl
  | deleteOp k =>
    rcases hd : dictGet k c.cache with _ | i
    · refine ⟨CObs.retBool false, c, ?_, ⟨hcap1, hlen, l, hw⟩, rfl⟩
      show (c.delete k).map _ = _
      rw [delete_spec_absent hd]
      rfl
    · have hi : i ∈ l := (hw.dictGet_some_iff.mp hd).1
      obtain ⟨l₁, l₂, rfl⟩ := List.append_of_mem hi
      obtain ⟨c', hdel, hw', hcache', hclen', hcap', -⟩ := delete_spec_present hw hd
      refine ⟨CObs.retBool true, c', ?_, ⟨by omega, by omega, _, hw'⟩, hcap'⟩
      show (c.delete k).map _ = _
      rw [hdel]
      rfl
  | clearOp =>
    obtain ⟨c', hclear, hw', hcache', hcap', -⟩ := clear_spec hw
    refine ⟨CObs.retUnit, c', ?_, ⟨by omega, by rw [hcache', hcap']; simp, _, hw'⟩, hcap'⟩
    show (c.clear).map _ = _
    rw [hclear]
    rfl
  | sizeOp => exact ⟨_, _, rfl, ⟨hcap1, hlen, l, hw⟩, rfl⟩
  | metricsOp =>
    exact ⟨_, _, rfl, ⟨hcap1, hlen, l, hw.congr rfl rfl⟩, rfl⟩

/-- Along any successful run from a reachable state, the invariant still
holds and the capacity is unchanged. -/
theorem run_SInv : ∀ (ops : List (COp V)) {c : LRUCache V} {os : List (CObs V)}
    {c' : LRUCache V}, SInv c → c.run ops = some (os, c') →
    SInv c' ∧ c'.capacity = c.capacity
  | [], c, os, c', hs, h => by
    simp only [run, Option.some.injEq, Prod.mk.injEq] at h
    obtain ⟨h1, hc⟩ := h
    subst hc
    exact ⟨hs, rfl⟩
  | op :: ops, c, os, c', hs, h => by
    simp only [run, Option.bind_eq_bind, Option.bind_eq_some, Option.pure_def,
      Option.some.injEq, Prod.mk.injEq] at h
    obtain ⟨⟨o, c₁⟩, hstep, ⟨os₂, c₂⟩, hrun, h1, hc⟩ := h
    subst hc
    obtain ⟨o', c₁', hstep', hs₁, hcap₁⟩ := step_total_SInv hs op
    rw [hstep] at hstep'
    injection hstep' with h'
    injection h' with ho hc₁
    subst hc₁
    obtain ⟨hs₂, hcap₂⟩ := run_SInv ops hs₁ hrun
    exact ⟨hs₂, hcap₂.trans hcap₁⟩

/-- Every run from a reachable state succeeds. -/
theorem run_total : ∀ (ops : List (COp V)) (c : LRUCache V), SInv c →
    ∃ os c', c.run ops = some (os, c')
  | [], c, _ => ⟨[], c, rfl⟩
  | op :: ops, c, hs => by
    obtain ⟨o, c₁, hstep, hs₁, h2⟩ := step_total_SInv hs op
    obtain ⟨os, c₂, hrun⟩ := run_total ops c₁ hs₁
    exact ⟨o :: os, c₂, by simp only [run, Option.bind_eq_bind, hstep,
      Option.some_bind, hrun, Option.pure_def]⟩

/-- A cache built by the constructor satisfies the reachability invariant. -/
theorem mk_SInv {cap : Int} {now : Nat} {c₀ : LRUCache V}
    (h : mkLRUCache V cap now = .ok c₀) : SInv c₀ := by
  by_cases hcap : cap ≤ 0
  · rw [mkLRUCache_err hcap] at h
    exact absurd h (by simp)
  · rw [mkLRUCache_ok (by omega)] at h
    injection h with h'
    subst h'
    exact ⟨by simp; omega, by simp, [], WFL_mk⟩

end LRUCache

/-! ## Timestamp erasure: `last_touched` never influences behaviour -/

/-- Erase the (informational) timestamp of a node. -/
def stripNode {V : Type} (n : LRUNode V) : LRUNode V := { n with timestamp := 0 }

/-- Erase every timestamp in the state. -/
def stripC {V : Type} (c : LRUCache V) : LRUCache V :=
  { c with nodes := c.nodes.map stripNode }

/-- Erase the `time()` input of a `put` call. -/
def stripOp {V : Type} : COp V → COp V
  | .putOp k v _ => .putOp k v 0
  | op => op

@[simp] theorem stripNode_key {V : Type} (n : LRUNode V) : (stripNode n).key = n.key := rfl
@[simp] theorem stripNode_value {V : Type} (n : LRUNode V) : (stripNode n).value = n.value := rfl
@[simp] theorem stripNode_prev {V : Type} (n : LRUNode V) : (stripNode n).prev = n.prev := rfl
@[simp] theorem stripNode_next {V : Type} (n : LRUNode V) : (stripNode n).next = n.next := rfl

namespace LRUCache

@[simp] theorem stripC_cache (c : LRUCache V) : (stripC c).cache = c.cache := rfl

@[simp] theorem stripC_metrics (c : LRUCache V) : (stripC c).metrics = c.metrics := rfl

@[simp] theorem stripC_capacity (c : LRUCache V) : (stripC c).capacity = c.capacity := rfl

@[simp] theorem stripC_nodes_length (c : LRUCache V) :
    (stripC c).nodes.length = c.nodes.length := by
  show (c.nodes.map stripNode).length = _
  simp

theorem node?_strip (c : LRUCache V) (i : Nat) :
    (stripC c).node? i = (c.node? i).map stripNode := by
  show (c.nodes.map stripNode)[i]? = _
  exact List.getElem?_map stripNode c.nodes i

theorem setNode_strip (c : LRUCache V) (i : Nat) (n : LRUNode V) :
    (stripC c).setNode i (stripNode n) = stripC (c.setNode i n) := by
  unfold stripC setNode
  simp only [List.map_set]

theorem _add_node_strip (c : LRUCache V) (i : Nat) :
    (stripC c)._add_node i = (c._add_node i).map stripC := by
  unfold _add_node
  rw [node?_strip]
  cases h0 : c.node? 0 with
  | none => rfl
  | some hd =>
    simp only [Option.map_some', Option.bind_eq_bind, Option.some_bind, stripNode_next]
    cases hf : hd.next with
    | none => rfl
    | some f =>
      simp only [Option.some_bind]
      rw [node?_strip]
      cases hi : c.node? i with
      | none => rfl
      | some nd =>
        simp only [Option.map_some', Option.some_bind]
        rw [show ({ stripNode nd with prev := some 0, next := some f } : LRUNode V)
          = stripNode { nd with prev := some 0, next := some f } from rfl, setNode_strip]
        rw [node?_strip]
        cases hfn : (c.setNode i { nd with prev := some 0, next := some f }).node? f with
        | none => rfl
        | some fn =>
          simp only [Option.map_some', Option.some_bind]
          rw [show ({ stripNode fn with prev := some i } : LRUNode V)
            = stripNode { fn with prev := some i } from rfl, setNode_strip]
          rw [node?_strip]
          cases hhd : ((c.setNode i { nd with prev := some 0, next := some f }).setNode f
              { fn with prev := some i }).node? 0 with
          | none => rfl
          | some hd' =>
            simp only [Option.map_some', Option.some_bind, Option.pure_def, Option.map_some']
            rw [show ({ stripNode hd' with next := some i } : LRUNode V)
              = stripNode { hd' with next := some i } from rfl, setNode_strip]

theorem _remove_node_strip (c : LRUCache V) (i : Nat) :
    (stripC c)._remove_node i = (c._remove_node i).map stripC := by
  unfold _remove_node
  rw [node?_strip]
  cases hi : c.node? i with
  | none => rfl
  | some nd =>
    simp only [Option.map_some', Option.bind_eq_bind, Option.some_bind, stripNode_prev,
      stripNode_next]
    cases hp : nd.prev with
    | none => rfl
    | some p =>
      simp only [Option.some_bind]
      cases hn : nd.next with
      | none => rfl
      | some n =>
        simp only [Option.some_bind]
        rw [node?_strip]
        cases hpn : c.node? p with
        | none => rfl
        | some pn =>
          simp only [Option.map_some', Option.some_bind]
          rw [show ({ stripNode pn with next := some n } : LRUNode V)
            = stripNode { pn with next := some n } from rfl, setNode_strip]
          rw [node?_strip]
          cases hnn : (c.setNode p { pn with next := some n }).node? n with
          | none => rfl
          | some nn =>
            simp only [Option.map_some', Option.some_bind, Option.pure_def]
            rw [show ({ stripNode nn with prev := some p } : LRUNode V)
              = stripNode { nn with prev := some p } from rfl, setNode_strip]

theorem _move_to_head_strip (c : LRUCache V) (i : Nat) :
    (stripC c)._move_to_head i = (c._move_to_head i).map stripC := by
  unfold _move_to_head
  rw [_remove_node_strip]
  cases h : c._remove_node i with
  | none => rfl
  | some c₁ =>
    simp only [Option.map_some', Option.bind_eq_bind, Option.some_bind]
    exact _add_node_strip c₁ i

theorem _pop_tail_strip (c : LRUCache V) :
    (stripC c)._pop_tail = (c._pop_tail).map fun p => (p.1, stripC p.2) := by
  unfold _pop_tail
  rw [node?_strip]
  cases ht : c.node? 1 with
  | none => rfl
  | some tl =>
    simp only [Option.map_some', Option.bind_eq_bind, Option.some_bind, stripNode_prev]
    cases hp : tl.prev with
    | none => rfl
    | some last =>
      dsimp only
      by_cases hl : last = 0
      · subst hl
        simp
      · rw [if_neg hl, if_neg hl, _remove_node_strip]
        cases h : c._remove_node last with
        | none => rfl
        | some c₁ => rfl

/-- Computation shape of `get` on a resident key. -/
theorem get_unfold_hit {c : LRUCache V} {k : String} {i : Nat}
    (hk : dictGet k c.cache = some i) :
    c.get k = (do
      let c₁ ← ({ c with metrics.total_requests := c.metrics.total_requests + 1 }
        : LRUCache V)._move_to_head i
      let c₂ : LRUCache V := { c₁ with metrics.hits := c₁.metrics.hits + 1 }
      let nd ← c₂.node? i
      return (nd.value, c₂)) := by
  unfold get
  simp only [hk]

theorem get_strip (c : LRUCache V) (k : String) :
    (stripC c).get k = (c.get k).map fun p => (p.1, stripC p.2) := by
  rcases hd : dictGet k c.cache with _ | i
  · rw [get_spec_miss (c := stripC c) (k := k) (by exact hd), get_spec_miss hd]
    rfl
  · rw [get_unfold_hit (c := stripC c) (k := k) (i := i) (by exact hd),
      get_unfold_hit (c := c) (k := k) (i := i) hd]
    rw [show ({ stripC c with
        metrics.total_requests := (stripC c).metrics.total_requests + 1 } : LRUCache V)
      = stripC { c with metrics.total_requests := c.metrics.total_requests + 1 } from rfl]
    rw [_move_to_head_strip]
    cases hm : ({ c with metrics.total_requests := c.metrics.total_requests + 1 }
        : LRUCache V)._move_to_head i with
    | none => rfl
    | some c₁ =>
      simp only [Option.map_some', Option.bind_eq_bind, Option.some_bind]
      rw [show ({ stripC c₁ with metrics.hits := (stripC c₁).metrics.hits + 1 }
        : LRUCache V) = stripC { c₁ with metrics.hits := c₁.metrics.hits + 1 } from rfl]
      rw [node?_strip]
      cases hn : ({ c₁ with metrics.hits := c₁.metrics.hits + 1 }
          : LRUCache V).node? i with
      | none => rfl
      | some nd => rfl

theorem put_strip (c : LRUCache V) (k : String) (v : V) (now : Nat) :
    (stripC c).put k v 0 = (c.put k v now).map fun p => (p.1, stripC p.2) := by
  rcases hd : dictGet k c.cache with _ | i
  · rw [put_insert_unfold (c := stripC c) (by exact hd), put_insert_unfold hd]
    rw [show ({ stripC c with
        nodes := (stripC c).nodes ++ [⟨k, some v, none, none, 0⟩] } : LRUCache V)
      = stripC { c with nodes := c.nodes ++ [⟨k, some v, none, none, now⟩] } from by
        unfold stripC
        simp [stripNode]]
    rw [show (stripC c).nodes.length = c.nodes.length from by simp]
    simp only [Option.bind_eq_bind]
    generalize hgen : ({ c with nodes := c.nodes ++ [⟨k, some v, none, none, now⟩] }
      : LRUCache V) = c₁
    rw [stripC_cache, stripC_capacity]
    have hcc : c₁.cache = c.cache := by rw [← hgen]
    have hcapc : c₁.capacity = c.capacity := by rw [← hgen]
    rw [hcc, hcapc]
    by_cases hcapb : c.cache.length ≥ c.capacity
    · rw [if_pos hcapb, if_pos hcapb, _pop_tail_strip]
      cases hpop : c₁._pop_tail with
      | none => rfl
      | some pr =>
        obtain ⟨popped, cp⟩ := pr
        simp only [Option.map_some', Option.some_bind]
        rcases popped with _ | ti
        · simp only [Option.pure_def, Option.some_bind]
          rw [show ({ stripC cp with
              cache := (stripC cp).cache ++ [(k, c.nodes.length)] } : LRUCache V)
            = stripC { cp with cache := cp.cache ++ [(k, c.nodes.length)] } from rfl]
          rw [_add_node_strip]
          cases ha : ({ cp with cache := cp.cache ++ [(k, c.nodes.length)] }
              : LRUCache V)._add_node c.nodes.length with
          | none => rfl
          | some c₄ => rfl
        · simp only [Option.some_bind]
          rw [node?_strip]
          cases ht : cp.node? ti with
          | none => rfl
          | some tn =>
            simp only [Option.map_some', Option.some_bind, stripNode_key, stripC_cache]
            cases hdel : dictDel tn.key cp.cache with
            | none => rfl
            | some m =>
              simp only [Option.some_bind, Option.pure_def]
              rw [show ({
                  capacity := (stripC cp).capacity,
                  nodes := (stripC cp).nodes,
                  cache := m ++ [(k, c.nodes.length)],
                  metrics := {
                    hits := (stripC cp).metrics.hits,
                    misses := (stripC cp).metrics.misses,
                    evictions := (stripC cp).metrics.evictions + 1,
                    total_requests := (stripC cp).metrics.total_requests,
                    cache_size := (stripC cp).metrics.cache_size,
                    max_size := (stripC cp).metrics.max_size } } : LRUCache V)
                = stripC {
                    capacity := cp.capacity,
                    nodes := cp.nodes,
                    cache := m ++ [(k, c.nodes.length)],
                    metrics := {
                      hits := cp.metrics.hits,
                      misses := cp.metrics.misses,
                      evictions := cp.metrics.evictions + 1,
                      total_requests := cp.metrics.total_requests,
                      cache_size := cp.metrics.cache_size,
                      max_size := cp.metrics.max_size } } from rfl]
              rw [_add_node_strip]
              cases ha : ({
                  capacity := cp.capacity,
                  nodes := cp.nodes,
                  cache := m ++ [(k, c.nodes.length)],
                  metrics := {
                    hits := cp.metrics.hits,
                    misses := cp.metrics.misses,
                    evictions := cp.metrics.evictions + 1,
                    total_requests := cp.metrics.total_requests,
                    cache_size := cp.metrics.cache_size,
                    max_size := cp.metrics.max_size } }
                  : LRUCache V)._add_node c.nodes.length with
              | none => rfl
              | some c₄ => rfl
    · rw [if_neg hcapb, if_neg hcapb]
      simp only [Option.pure_def, Option.some_bind]
      rw [show ({ stripC c₁ with
          cache := (stripC c₁).cache ++ [(k, c.nodes.length)] } : LRUCache V)
        = stripC { c₁ with cache := c₁.cache ++ [(k, c.nodes.length)] } from rfl]
      rw [_add_node_strip]
      cases ha : ({ c₁ with cache := c₁.cache ++ [(k, c.nodes.length)] }
          : LRUCache V)._add_node c.nodes.length with
      | none => rfl
      | some c₄ => rfl
  · rw [put_update_unfold (c := stripC c) (by exact hd), put_update_unfold hd]
    rw [node?_strip]
    cases hn : c.node? i with
    | none => rfl
    | some nd =>
      simp only [Option.map_some', Option.bind_eq_bind, Option.some_bind,
        stripNode_value]
      rw [show ((stripC c).setNode i { stripNode nd with
          value := some v, timestamp := 0 } : LRUCache V)
        = stripC (c.setNode i { nd with value := some v, timestamp := now }) from by
          rw [show ({ stripNode nd with value := some v, timestamp := 0 } : LRUNode V)
            = stripNode { nd with value := some v, timestamp := now } from rfl]
          exact setNode_strip c i { nd with value := some v, timestamp := now }]
      rw [_move_to_head_strip]
      cases hm : (c.setNode i { nd with
          value := some v, timestamp := now })._move_to_head i with
      | none => rfl
      | some c₁ => rfl

theorem delete_strip (c : LRUCache V) (k : String) :
    (stripC c).delete k = (c.delete k).map fun p => (p.1, stripC p.2) := by
  unfold delete
  rw [stripC_cache]
  rcases hd : dictGet k c.cache with _ | i
  · rfl
  · simp only [Option.bind_eq_bind, Option.bind_eq_some]
    rw [_remove_node_strip]
    cases hrm : c._remove_node i with
    | none => rfl
    | some c₁ =>
      simp only [Option.map_some', Option.some_bind, stripC_cache]
      cases hdel : dictDel k c₁.cache with
      | none => rfl
      | some m => rfl

/-- Computation shape of `clear`. -/
theorem clear_unfold (c : LRUCache V) :
    c.clear = (({ c with cache := ([] : List (String × Nat)) } : LRUCache V).node? 0).bind
      (fun hd =>
        ((({ c with cache := ([] : List (String × Nat)) } : LRUCache V).setNode 0
            { hd with next := some 1 }).node? 1).bind
          (fun tl =>
            some { (({ c with cache := ([] : List (String × Nat)) } : LRUCache V).setNode 0
                { hd with next := some 1 }).setNode 1 { tl with prev := some 0 } with
              metrics.cache_size := 0 })) := rfl

theorem clear_strip (c : LRUCache V) :
    (stripC c).clear = (c.clear).map stripC := by
  rw [clear_unfold (stripC c), clear_unfold c]
  rw [show ({ stripC c with cache := ([] : List (String × Nat)) } : LRUCache V)
    = stripC { c with cache := ([] : List (String × Nat)) } from rfl]
  rw [node?_strip]
  cases h0 : ({ c with cache := ([] : List (String × Nat)) } : LRUCache V).node? 0 with
  | none => rfl
  | some hd =>
    simp only [Option.map_some', Option.some_bind]
    rw [show ({ stripNode hd with next := some 1 } : LRUNode V)
      = stripNode { hd with next := some 1 } from rfl, setNode_strip, node?_strip]
    cases h1 : (({ c with cache := ([] : List (String × Nat)) } : LRUCache V).setNode 0
        { hd with next := some 1 }).node? 1 with
    | none => rfl
    | some tl =>
      simp only [Option.map_some', Option.some_bind]
      rw [show ({ stripNode tl with prev := some 0 } : LRUNode V)
        = stripNode { tl with prev := some 0 } from rfl, setNode_strip]
      rfl

theorem step_strip (c : LRUCache V) (op : COp V) :
    (stripC c).step (stripOp op) = (c.step op).map fun p => (p.1, stripC p.2) := by
  cases op with
  | getOp k =>
    show ((stripC c).get k).map (fun p => (CObs.retVal p.1, p.2)) =
      ((c.get k).map (fun p => (CObs.retVal p.1, p.2))).map
        (fun p => (p.1, stripC p.2))
    rw [get_strip]
    cases c.get k <;> rfl
  | putOp k v now =>
    show ((stripC c).put k v 0).map (fun p => (CObs.retBool p.1, p.2)) =
      ((c.put k v now).map (fun p => (CObs.retBool p.1, p.2))).map
        (fun p => (p.1, stripC p.2))
    rw [put_strip c k v now]
    cases c.put k v now <;> rfl
  | deleteOp k =>
    show ((stripC c).delete k).map (fun p => (CObs.retBool p.1, p.2)) =
      ((c.delete k).map (fun p => (CObs.retBool p.1, p.2))).map
        (fun p => (p.1, stripC p.2))
    rw [delete_strip]
    cases c.delete k <;> rfl
  | clearOp =>
    show ((stripC c).clear).map (fun c' => (CObs.retUnit, c')) =
      ((c.clear).map (fun c' => (CObs.retUnit, c'))).map
        (fun p => (p.1, stripC p.2))
    rw [clear_strip]
    cases c.clear <;> rfl
  | sizeOp => rfl
  | metricsOp => rfl

theorem run_cons (c : LRUCache V) (op : COp V) (ops : List (COp V)) :
    c.run (op :: ops) = (c.step op).bind
      (fun p => (p.2.run ops).bind fun q => some (p.1 :: q.1, q.2)) := rfl

theorem run_strip : ∀ (ops : List (COp V)) (c : LRUCache V),
    (stripC c).run (ops.map stripOp) = (c.run ops).map fun p => (p.1, stripC p.2)
  | [], c => rfl
  | op :: ops, c => by
    rw [List.map_cons, run_cons (stripC c), run_cons c, step_strip]
    cases hs : c.step op with
    | none => rfl
    | some pr =>
      obtain ⟨o, c₁⟩ := pr
      simp only [Option.map_some', Option.some_bind]
      rw [run_strip ops c₁]
      cases hr : c₁.run ops with
      | none => rfl
      | some pr₂ => rfl

end LRUCache

/-! ## Concrete states used by the closed instances below -/

/-- The cache `LRUCache(1)` as built at time 0. -/
def c1fresh : LRUCache Nat :=
  { capacity := 1
    nodes := [⟨"", none, none, some 1, 0⟩, ⟨"", none, some 0, none, 0⟩]
    cache := []
    metrics := ⟨0, 0, 0, 0, 0, 1⟩ }

/-- The cache `LRUCache(2)` as built at time 0. -/
def c2fresh : LRUCache Nat :=
  { capacity := 2
    nodes := [⟨"", none, none, some 1, 0⟩, ⟨"", none, some 0, none, 0⟩]
    cache := []
    metrics := ⟨0, 0, 0, 0, 0, 2⟩ }

/-- `LRUCache(2)` after `put("a", 1)` at time 5 and `put("b", 2)` at time 6:
a full cache with recency order `b` (head-most), then `a` (tail-most). -/
def c2full : LRUCache Nat :=
  { capacity := 2
    nodes := [⟨"", none, none, some 3, 0⟩, ⟨"", none, some 2, none, 0⟩,
              ⟨"a", some 1, some 3, some 1, 5⟩, ⟨"b", some 2, some 0, some 2, 6⟩]
    cache := [("a", 2), ("b", 3)]
    metrics := ⟨0, 0, 0, 0, 2, 2⟩ }

/-! ## The claims -/

/-- Claim C6: `get` on a key absent from the table returns absent, increments
`misses` and `total_requests`, and changes nothing else — the node arena, the
dict, the capacity, `size()`, and the `hits`, `evictions`, `cache_size` and
`max_size` counters are all untouched. -/
theorem claim_C6 {V : Type} (c : LRUCache V) (k : String)
    (hk : dictGet k c.cache = none) :
    ∃ c', c.get k = some (none, c') ∧
      c'.nodes = c.nodes ∧ c'.cache = c.cache ∧ c'.capacity = c.capacity ∧
      c'.size = c.size ∧
      c'.metrics.misses = c.metrics.misses + 1 ∧
      c'.metrics.total_requests = c.metrics.total_requests + 1 ∧
      c'.metrics.hits = c.metrics.hits ∧
      c'.metrics.evictions = c.metrics.evictions ∧
      c'.metrics.cache_size = c.metrics.cache_size ∧
      c'.metrics.max_size = c.metrics.max_size :=
  ⟨_, LRUCache.get_spec_miss hk, rfl, rfl, rfl, rfl, rfl, rfl, rfl, rfl, rfl, rfl⟩

/-- Closed instance of `claim_C6`: a concrete full cache and an absent key. -/
theorem claim_C6_witness :
    dictGet "z" c2full.cache = none ∧
    ∃ c', c2full.get "z" = some (none, c') ∧
      c'.nodes = c2full.nodes ∧ c'.cache = c2full.cache ∧
      c'.capacity = c2full.capacity ∧
      c'.size = c2full.size ∧
      c'.metrics.misses = c2full.metrics.misses + 1 ∧
      c'.metrics.total_requests = c2full.metrics.total_requests + 1 ∧
      c'.metrics.hits = c2full.metrics.hits ∧
      c'.metrics.evictions = c2full.metrics.evictions ∧
      c'.metrics.cache_size = c2full.metrics.cache_size ∧
      c'.metrics.max_size = c2full.metrics.max_size :=
  ⟨by decide, claim_C6 c2full "z" (by decide)⟩

/-- Claim C7: construction fails with the `ValueError` exactly when
`capacity ≤ 0` and succeeds for every positive capacity; from any reachable
state every interface call (`get`, `put`, `delete`, `clear`, `size`, the
metrics read) succeeds and re-establishes reachability, and whole call
sequences are total. -/
theorem claim_C7 (V : Type) :
    (∀ (cap : Int) (now : Nat), cap ≤ 0 →
       LRUCache.mkLRUCache V cap now = .error "Capacity must be greater than 0") ∧
    (∀ (cap : Int) (now : Nat), 0 < cap →
       ∃ c₀, LRUCache.mkLRUCache V cap now = .ok c₀ ∧ SInv c₀) ∧
    (∀ (c : LRUCache V), SInv c → ∀ op : COp V,
       ∃ o c', c.step op = some (o, c') ∧ SInv c') ∧
    (∀ (c : LRUCache V) (ops : List (COp V)), SInv c →
       ∃ os c', c.run ops = some (os, c')) := by
  refine ⟨fun cap now h => LRUCache.mkLRUCache_err h,
    fun cap now h => ⟨_, LRUCache.mkLRUCache_ok h,
      LRUCache.mk_SInv (LRUCache.mkLRUCache_ok h)⟩,
    fun c hs op => ?_, fun c ops hs => LRUCache.run_total ops c hs⟩
  obtain ⟨o, c', hst, hs', _⟩ := LRUCache.step_total_SInv hs op
  exact ⟨o, c', hst, hs'⟩

/-- Closed instance of `claim_C7`: capacity `-1` fails, capacity `2`
succeeds, and a concrete call sequence on a reachable full cache runs to
completion. -/
theorem claim_C7_witness :
    LRUCache.mkLRUCache Nat (-1) 0 = .error "Capacity must be greater than 0" ∧
    (∃ c₀, LRUCache.mkLRUCache Nat 2 0 = .ok c₀ ∧ SInv c₀) ∧
    (∃ os c', c2full.run
      [COp.getOp "a", COp.putOp "c" 3 7, COp.deleteOp "b", COp.clearOp,
       COp.sizeOp, COp.metricsOp] = some (os, c')) :=
  ⟨(claim_C7 Nat).1 (-1) 0 (by decide),
   (claim_C7 Nat).2.1 2 0 (by decide),
   (claim_C7 Nat).2.2.2 c2full _ ⟨by decide, by decide, [3, 2], by decide⟩⟩

/-- Claim C8: after `clear()` the entry count is `0` and `get` on every key
returns absent (counting a miss), while the cumulative `hits`, `misses`,
`evictions`, `total_requests` counters and the configured `max_size` keep
exactly their pre-clear values. -/
theorem claim_C8 {V : Type} (c : LRUCache V) (l : List Nat) (hw : WFL c l) :
    ∃ c', c.clear = some c' ∧
      c'.size = 0 ∧
      (∀ k : String, ∃ c'', c'.get k = some (none, c'') ∧
        c''.metrics.misses = c'.metrics.misses + 1) ∧
      c'.metrics.hits = c.metrics.hits ∧
      c'.metrics.misses = c.metrics.misses ∧
      c'.metrics.evictions = c.metrics.evictions ∧
      c'.metrics.total_requests = c.metrics.total_requests ∧
      c'.metrics.max_size = c.metrics.max_size := by
  obtain ⟨c', hcl, hwf, hcache, hcap, hlen, hmet⟩ := LRUCache.clear_spec hw
  refine ⟨c', hcl, ?_, ?_, ?_, ?_, ?_, ?_, ?_⟩
  · show c'.cache.length = 0
    rw [hcache]
    rfl
  · intro k
    refine ⟨_, LRUCache.get_spec_miss (by rw [hcache]; rfl), rfl⟩
  all_goals rw [hmet]

/-- Closed instance of `claim_C8` on a concrete full cache. -/
theorem claim_C8_witness :
    WFL c2full [3, 2] ∧
    ∃ c', c2full.clear = some c' ∧
      c'.size = 0 ∧
      (∀ k : String, ∃ c'', c'.get k = some (none, c'') ∧
        c''.metrics.misses = c'.metrics.misses + 1) ∧
      c'.metrics.hits = c2full.metrics.hits ∧
      c'.metrics.misses = c2full.metrics.misses ∧
      c'.metrics.evictions = c2full.metrics.evictions ∧
      c'.metrics.total_requests = c2full.metrics.total_requests ∧
      c'.metrics.max_size = c2full.metrics.max_size :=
  ⟨by decide, claim_C8 c2full [3, 2] (by decide)⟩

/-- One interface call preserves the `hits + misses = total_requests`
balance of the counters. -/
theorem step_balance {V : Type} {c c' : LRUCache V} {op : COp V} {o : CObs V}
    (h : c.step op = some (o, c'))
    (hb : c.metrics.hits + c.metrics.misses = c.metrics.total_requests) :
    c'.metrics.hits + c'.metrics.misses = c'.metrics.total_requests := by
  cases op with
  | getOp k =>
    simp only [LRUCache.step, Option.map_eq_some'] at h
    obtain ⟨⟨r, c₁⟩, hg, he⟩ := h
    simp only [Prod.mk.injEq] at he
    obtain ⟨-, he₂⟩ := he
    subst he₂
    obtain ⟨hg₁, hg₂⟩ := LRUCache.get_counters hg
    omega
  | putOp k v now =>
    simp only [LRUCache.step, Option.map_eq_some'] at h
    obtain ⟨⟨b, c₁⟩, hp, he⟩ := h
    simp only [Prod.mk.injEq] at he
    obtain ⟨-, he₂⟩ := he
    subst he₂
    obtain ⟨h1, h2, h3, _⟩ := LRUCache.put_hmt_frame hp
    rw [h1, h2, h3]
    exact hb
  | deleteOp k =>
    simp only [LRUCache.step, Option.map_eq_some'] at h
    obtain ⟨⟨b, c₁⟩, hp, he⟩ := h
    simp only [Prod.mk.injEq] at he
    obtain ⟨-, he₂⟩ := he
    subst he₂
    obtain ⟨h1, h2, _, h3, _⟩ := LRUCache.delete_hme_frame hp
    rw [h1, h2, h3]
    exact hb
  | clearOp =>
    simp only [LRUCache.step, Option.map_eq_some'] at h
    obtain ⟨c₁, hp, he⟩ := h
    simp only [Prod.mk.injEq] at he
    obtain ⟨-, he₂⟩ := he
    subst he₂
    obtain ⟨h1, h2, _, h3, _, _⟩ := LRUCache.clear_hme_frame hp
    rw [h1, h2, h3]
    exact hb
  | sizeOp =>
    simp only [LRUCache.step, Option.some.injEq, Prod.mk.injEq] at h
    obtain ⟨-, he₂⟩ := h
    subst he₂
    exact hb
  | metricsOp =>
    simp only [LRUCache.step, Option.some.injEq, Prod.mk.injEq] at h
    obtain ⟨-, he₂⟩ := h
    subst he₂
    exact hb

/-- A whole call sequence preserves the counter balance. -/
theorem run_balance {V : Type} : ∀ (ops : List (COp V)) {c c' : LRUCache V}
    {os : List (CObs V)}, c.run ops = some (os, c') →
    c.metrics.hits + c.metrics.misses = c.metrics.total_requests →
    c'.metrics.hits + c'.metrics.misses = c'.metrics.total_requests
  | [], c, c', os, h, hb => by
    simp only [LRUCache.run, Option.some.injEq, Prod.mk.injEq] at h
    rw [← h.2]
    exact hb
  | op :: ops, c, c', os, h, hb => by
    rw [LRUCache.run_cons] at h
    simp only [Option.bind_eq_some] at h
    obtain ⟨⟨o, c₁⟩, hstep, h⟩ := h
    obtain ⟨⟨os₁, c₂⟩, hrun, he⟩ := h
    simp only [Option.some.injEq, Prod.mk.injEq] at he
    rw [← he.2]
    exact run_balance ops hrun (step_balance hstep hb)

/-- Claim C3: the counters balance — `hits + misses = total_requests` holds
at construction and is preserved by every interface call, hence at every
point between operations of any sequence; `get` increments `total_requests`
on every call; and `put`, `delete` and `clear` leave `hits`, `misses` and
`total_requests` untouched, so only `get` changes them. -/
theorem claim_C3 (V : Type) :
    (∀ (cap : Int) (now : Nat) (c₀ : LRUCache V),
       LRUCache.mkLRUCache V cap now = .ok c₀ →
       c₀.metrics.hits + c₀.metrics.misses = c₀.metrics.total_requests) ∧
    (∀ (c : LRUCache V) (op : COp V) (o : CObs V) (c' : LRUCache V),
       c.step op = some (o, c') →
       c.metrics.hits + c.metrics.misses = c.metrics.total_requests →
       c'.metrics.hits + c'.metrics.misses = c'.metrics.total_requests) ∧
    (∀ (cap : Int) (now : Nat) (c₀ : LRUCache V) (ops : List (COp V))
       (os : List (CObs V)) (c' : LRUCache V),
       LRUCache.mkLRUCache V cap now = .ok c₀ → c₀.run ops = some (os, c') →
       c'.metrics.hits + c'.metrics.misses = c'.metrics.total_requests) ∧
    (∀ (c c' : LRUCache V) (k : String) (r : Option V),
       c.get k = some (r, c') →
       c'.metrics.total_requests = c.metrics.total_requests + 1) ∧
    (∀ (c c' : LRUCache V) (k : String) (v : V) (now : Nat) (b : Bool),
       c.put k v now = some (b, c') →
       c'.metrics.hits = c.metrics.hits ∧
         c'.metrics.misses = c.metrics.misses ∧
         c'.metrics.total_requests = c.metrics.total_requests) ∧
    (∀ (c c' : LRUCache V) (k : String) (b : Bool),
       c.delete k = some (b, c') →
       c'.metrics.hits = c.metrics.hits ∧
         c'.metrics.misses = c.metrics.misses ∧
         c'.metrics.total_requests = c.metrics.total_requests) ∧
    (∀ (c c' : LRUCache V), c.clear = some c' →
       c'.metrics.hits = c.metrics.hits ∧
         c'.metrics.misses = c.metrics.misses ∧
         c'.metrics.total_requests = c.metrics.total_requests) := by
  have hmk : ∀ (cap : Int) (now : Nat) (c₀ : LRUCache V),
      LRUCache.mkLRUCache V cap now = .ok c₀ →
      c₀.metrics.hits + c₀.metrics.misses = c₀.metrics.total_requests := by
    intro cap now c₀ h
    by_cases hcap : cap ≤ 0
    · rw [LRUCache.mkLRUCache_err hcap] at h
      exact absurd h (by simp)
    · rw [LRUCache.mkLRUCache_ok (by omega)] at h
      injection h with h'
      rw [← h']
      rfl
  refine ⟨hmk, fun c op o c' h hb => step_balance h hb,
    fun cap now c₀ ops os c' h hr => run_balance ops hr (hmk cap now c₀ h),
    fun c c' k r h => (LRUCache.get_counters h).1,
    fun c c' k v now b h => ?_, fun c c' k b h => ?_, fun c c' h => ?_⟩
  · obtain ⟨h1, h2, h3, _⟩ := LRUCache.put_hmt_frame h
    exact ⟨h1, h2, h3⟩
  · obtain ⟨h1, h2, _, h3, _⟩ := LRUCache.delete_hme_frame h
    exact ⟨h1, h2, h3⟩
  · obtain ⟨h1, h2, _, h3, _, _⟩ := LRUCache.clear_hme_frame h
    exact ⟨h1, h2, h3⟩

/-- `LRUCache(2)` after the calls `put("a",1)`, `get("a")`, `get("x")`:
one hit, one miss, two requests. -/
def c3fin : LRUCache Nat :=
  { capacity := 2
    nodes := [⟨"", none, none, some 2, 0⟩, ⟨"", none, some 2, none, 0⟩,
              ⟨"a", some 1, some 0, some 1, 5⟩]
    cache := [("a", 2)]
    metrics := ⟨1, 1, 0, 2, 1, 2⟩ }

/-- Closed instance of `claim_C3`: a concrete run from construction keeps
the counter balance. -/
theorem claim_C3_witness :
    c2fresh.run [COp.putOp "a" 1 5, COp.getOp "a", COp.getOp "x"]
      = some ([CObs.retBool true, CObs.retVal (some 1), CObs.retVal none], c3fin) ∧
    c3fin.metrics.hits + c3fin.metrics.misses = c3fin.metrics.total_requests :=
  ⟨by decide, (claim_C3 Nat).2.2.1 2 0 c2fresh
    [COp.putOp "a" 1 5, COp.getOp "a", COp.getOp "x"]
    [CObs.retBool true, CObs.retVal (some 1), CObs.retVal none] c3fin
    (by rfl) (by decide)⟩

/-- Claim C9: timestamp independence.  Construction at different `time()`
values yields caches equal up to timestamps; and two runs of call sequences
that agree up to the `time()` values the `put` calls observe, started from
states equal up to timestamps, produce identical observable results and
final states with identical metrics and identical dicts (so the same keys
were kept and evicted), again equal up to timestamps. -/
theorem claim_C9 (V : Type) :
    (∀ (cap : Int) (n₁ n₂ : Nat) (c₁ c₂ : LRUCache V),
       LRUCache.mkLRUCache V cap n₁ = .ok c₁ →
       LRUCache.mkLRUCache V cap n₂ = .ok c₂ → stripC c₁ = stripC c₂) ∧
    (∀ (c₁ c₂ : LRUCache V) (ops₁ ops₂ : List (COp V)),
       stripC c₁ = stripC c₂ → ops₁.map stripOp = ops₂.map stripOp →
       (c₁.run ops₁).map (fun p => (p.1, stripC p.2))
         = (c₂.run ops₂).map (fun p => (p.1, stripC p.2))) ∧
    (∀ (c₁ c₂ : LRUCache V) (ops₁ ops₂ : List (COp V)) (os₁ os₂ : List (CObs V))
       (f₁ f₂ : LRUCache V),
       stripC c₁ = stripC c₂ → ops₁.map stripOp = ops₂.map stripOp →
       c₁.run ops₁ = some (os₁, f₁) → c₂.run ops₂ = some (os₂, f₂) →
       os₁ = os₂ ∧ f₁.metrics = f₂.metrics ∧ f₁.cache = f₂.cache ∧
         stripC f₁ = stripC f₂) := by
  have hrun : ∀ (c₁ c₂ : LRUCache V) (ops₁ ops₂ : List (COp V)),
      stripC c₁ = stripC c₂ → ops₁.map stripOp = ops₂.map stripOp →
      (c₁.run ops₁).map (fun p => (p.1, stripC p.2))
        = (c₂.run ops₂).map (fun p => (p.1, stripC p.2)) := by
    intro c₁ c₂ ops₁ ops₂ hc hop
    rw [← LRUCache.run_strip, ← LRUCache.run_strip, hc, hop]
  refine ⟨?_, hrun, ?_⟩
  · intro cap n₁ n₂ c₁ c₂ h₁ h₂
    by_cases hcap : cap ≤ 0
    · rw [LRUCache.mkLRUCache_err hcap] at h₁
      exact absurd h₁ (by simp)
    · rw [LRUCache.mkLRUCache_ok (by omega)] at h₁ h₂
      injection h₁ with h₁'
      injection h₂ with h₂'
      rw [← h₁', ← h₂']
      unfold stripC
      simp [stripNode]
  · intro c₁ c₂ ops₁ ops₂ os₁ os₂ f₁ f₂ hc hop h₁ h₂
    have h := hrun c₁ c₂ ops₁ ops₂ hc hop
    rw [h₁, h₂] at h
    simp only [Option.map_some', Option.some.injEq, Prod.mk.injEq] at h
    obtain ⟨hos, hsf⟩ := h
    refine ⟨hos, ?_, ?_, hsf⟩
    · have := congrArg LRUCache.metrics hsf
      simpa using this
    · have := congrArg LRUCache.cache hsf
      simpa using this

/-- The cache `LRUCache(2)` as built at time 9. -/
def c2fresh9 : LRUCache Nat :=
  { capacity := 2
    nodes := [⟨"", none, none, some 1, 9⟩, ⟨"", none, some 0, none, 9⟩]
    cache := []
    metrics := ⟨0, 0, 0, 0, 0, 2⟩ }

/-- `c2fresh9` after `put("a",1)` at time 55 and `get("a")`. -/
def c9finA : LRUCache Nat :=
  { capacity := 2
    nodes := [⟨"", none, none, some 2, 9⟩, ⟨"", none, some 2, none, 9⟩,
              ⟨"a", some 1, some 0, some 1, 55⟩]
    cache := [("a", 2)]
    metrics := ⟨1, 0, 0, 1, 1, 2⟩ }

/-- `c2fresh` after `put("a",1)` at time 5 and `get("a")`. -/
def c9finB : LRUCache Nat :=
  { capacity := 2
    nodes := [⟨"", none, none, some 2, 0⟩, ⟨"", none, some 2, none, 0⟩,
              ⟨"a", some 1, some 0, some 1, 5⟩]
    cache := [("a", 2)]
    metrics := ⟨1, 0, 0, 1, 1, 2⟩ }

/-- Closed instance of `claim_C9`: the same calls at different `time()`
values give the same observations, metrics and dict. -/
theorem claim_C9_witness :
    c2fresh9.run [COp.putOp "a" 1 55, COp.getOp "a"]
      = some ([CObs.retBool true, CObs.retVal (some 1)], c9finA) ∧
    c2fresh.run [COp.putOp "a" 1 5, COp.getOp "a"]
      = some ([CObs.retBool true, CObs.retVal (some 1)], c9finB) ∧
    c9finA.metrics = c9finB.metrics ∧ c9finA.cache = c9finB.cache ∧
    stripC c9finA = stripC c9finB :=
  ⟨by decide, by decide,
    ((claim_C9 Nat).2.2 c2fresh9 c2fresh
      [COp.putOp "a" 1 55, COp.getOp "a"] [COp.putOp "a" 1 5, COp.getOp "a"]
      [CObs.retBool true, CObs.retVal (some 1)]
      [CObs.retBool true, CObs.retVal (some 1)] c9finA c9finB (by decide)
      (by decide) (by decide) (by decide)).2⟩

/-- A reachable state with a nonempty table has a tail-most interior node. -/
theorem SInv_concat {V : Type} {c : LRUCache V} (hs : SInv c)
    (hne : c.cache.length ≠ 0) : ∃ l' jt, WFL c (l' ++ [jt]) := by
  obtain ⟨hcap1, hlen, l, hw⟩ := hs
  rcases List.eq_nil_or_concat l with h | ⟨l', jt, h⟩
  · rw [h] at hw
    have := hw.length_eq
    simp only [List.length_nil] at this
    exact absurd this hne
  · rw [List.concat_eq_append] at h
    exact ⟨l', jt, h ▸ hw⟩

/-- Claim C10: in the eviction branch of `put` (fresh key, table at
capacity, any reachable state) `_pop_tail` always yields a real node — the
branch where it returns `None` (tail sentinel directly following the head
sentinel) is unreachable — and the eviction event removes exactly one entry
from the table and the recency list before one entry is inserted, bumping
`evictions` by exactly 1. -/
theorem claim_C10 {V : Type} (c : LRUCache V) (k : String) (v : V) (now : Nat)
    (hs : SInv c) (hk : dictGet k c.cache = none)
    (hfull : c.capacity ≤ c.cache.length) :
    ∃ jt cmid c',
      ({ c with nodes := c.nodes ++ [⟨k, some v, none, none, now⟩] }
        : LRUCache V)._pop_tail = some (some jt, cmid) ∧
      c.put k v now = some (true, c') ∧
      c'.cache.length = c.cache.length ∧
      dictGet (keyAtN c.nodes jt) c'.cache = none ∧
      (∃ l', WFL c' (c.nodes.length :: l') ∧ l'.length + 1 = c.cache.length) ∧
      c'.metrics.evictions = c.metrics.evictions + 1 := by
  have hcap1 : 1 ≤ c.capacity := hs.1
  obtain ⟨l', jt, hw⟩ := SInv_concat hs (by omega)
  obtain ⟨c', hput, hw', hcache, hclen, hcap, hnlen, hkey, hval, hpres, hmet, cmid,
    hpop⟩ := LRUCache.put_evict_spec hw hk hfull
  refine ⟨jt, cmid, c', hpop, hput, hclen, ?_, ⟨l', hw', ?_⟩, by rw [hmet]⟩
  · rw [hcache]
    have hjtk : keyAtN c.nodes jt ≠ k := by
      intro h
      have : dictGet k c.cache = some jt := hw.dictGet_some_iff.mpr ⟨by simp, h⟩
      rw [hk] at this
      exact absurd this (by simp)
    rw [dictGet_append_of_none (dictGet_filter_self _ _)]
    exact dictGet_singleton_ne (Ne.symm hjtk)
  · have := hw.length_eq
    simp at this
    omega

/-- Closed instance of `claim_C10` on a concrete full cache. -/
theorem claim_C10_witness :
    dictGet "c" c2full.cache = none ∧
    c2full.capacity ≤ c2full.cache.length ∧
    ∃ jt cmid c',
      ({ c2full with nodes := c2full.nodes ++ [⟨"c", some 3, none, none, 7⟩] }
        : LRUCache Nat)._pop_tail = some (some jt, cmid) ∧
      c2full.put "c" 3 7 = some (true, c') ∧
      c'.cache.length = c2full.cache.length ∧
      dictGet (keyAtN c2full.nodes jt) c'.cache = none ∧
      (∃ l', WFL c' (c2full.nodes.length :: l') ∧
        l'.length + 1 = c2full.cache.length) ∧
      c'.metrics.evictions = c2full.metrics.evictions + 1 :=
  ⟨by decide, by decide,
    claim_C10 c2full "c" 3 7 ⟨by decide, by decide, [3, 2], by decide⟩
      (by decide) (by decide)⟩

/-- Claim C4: size bounds and synchronization.  In every reachable state
`size()` equals the number of table entries, which equals the number of
non-sentinel nodes of the recency list, and is at most the capacity (as a
`Nat` it is at least 0); reachability holds at construction and is preserved
by every call; and in `put`'s eviction branch the table shrinks to
`capacity - 1` entries strictly before the new entry is inserted, so the
entry count never exceeds the capacity even transiently. -/
theorem claim_C4 (V : Type) :
    (∀ c : LRUCache V, SInv c →
       c.size = c.cache.length ∧ c.size ≤ c.capacity ∧
       ∃ l, WFL c l ∧ l.length = c.size) ∧
    (∀ (cap : Int) (now : Nat) (c₀ : LRUCache V),
       LRUCache.mkLRUCache V cap now = .ok c₀ → SInv c₀) ∧
    (∀ (c : LRUCache V) (op : COp V) (o : CObs V) (c' : LRUCache V),
       SInv c → c.step op = some (o, c') → SInv c') ∧
    (∀ (c : LRUCache V) (k : String) (v : V) (now : Nat),
       SInv c → dictGet k c.cache = none → c.capacity ≤ c.cache.length →
       ∃ jt c', c.put k v now = some (true, c') ∧
         (c.cache.filter (fun p => p.1 ≠ keyAtN c.nodes jt)).length + 1
           = c.cache.length ∧
         (c.cache.filter (fun p => p.1 ≠ keyAtN c.nodes jt)).length
           < c.capacity ∧
         c'.cache = c.cache.filter (fun p => p.1 ≠ keyAtN c.nodes jt)
           ++ [(k, c.nodes.length)] ∧
         c'.cache.length ≤ c.capacity) := by
  refine ⟨fun c hs => ⟨rfl, hs.2.1, ?_⟩, fun cap now c₀ h => LRUCache.mk_SInv h,
    fun c op o c' hs hst => ?_, fun c k v now hs hk hfull => ?_⟩
  · obtain ⟨-, -, l, hw⟩ := hs
    exact ⟨l, hw, hw.length_eq.symm⟩
  · obtain ⟨o₀, c₀, hst₀, hs₀, -⟩ := LRUCache.step_total_SInv hs op
    have hoc := Option.some.inj (hst₀.symm.trans hst)
    cases hoc
    exact hs₀
  · have hcap1 : 1 ≤ c.capacity := hs.1
    have hfull' : c.cache.length = c.capacity := le_antisymm hs.2.1 hfull
    obtain ⟨l', jt, hw⟩ := SInv_concat hs (by omega)
    obtain ⟨c', hput, hw', hcache, hclen, hcap, hnlen, hkey, hval, hpres, hmet,
      cmid, hpop⟩ := LRUCache.put_evict_spec hw hk hfull
    have hflen : (c.cache.filter (fun p => p.1 ≠ keyAtN c.nodes jt)).length + 1
        = c.cache.length := by
      have := congrArg List.length hcache
      simp only [List.length_append, List.length_singleton] at this
      omega
    exact ⟨jt, c', hput, hflen, by omega, hcache, by omega⟩

/-- Closed instance of `claim_C4`: the transient bound in a concrete
eviction. -/
theorem claim_C4_witness :
    dictGet "c" c2full.cache = none ∧
    c2full.capacity ≤ c2full.cache.length ∧
    ∃ jt c', c2full.put "c" 3 7 = some (true, c') ∧
      (c2full.cache.filter (fun p => p.1 ≠ keyAtN c2full.nodes jt)).length + 1
        = c2full.cache.length ∧
      (c2full.cache.filter (fun p => p.1 ≠ keyAtN c2full.nodes jt)).length
        < c2full.capacity ∧
      c'.cache = c2full.cache.filter (fun p => p.1 ≠ keyAtN c2full.nodes jt)
        ++ [("c", c2full.nodes.length)] ∧
      c'.cache.length ≤ c2full.capacity :=
  ⟨by decide, by decide,
    (claim_C4 Nat).2.2.2 c2full "c" 3 7 ⟨by decide, by decide, [3, 2], by decide⟩
      (by decide) (by decide)⟩

/-- Claim C5: `put` on a key already present returns `False`, leaves the
entry count unchanged, evicts nothing (the metrics, `evictions` included,
are untouched), overwrites the stored value so that a subsequent `get`
returns the new value, and moves the entry to the head of the recency
order — regardless of capacity pressure. -/
theorem claim_C5 {V : Type} (c : LRUCache V) (l₁ l₂ : List Nat) (i : Nat)
    (k : String) (v : V) (now : Nat)
    (hw : WFL c (l₁ ++ i :: l₂)) (hk : dictGet k c.cache = some i) :
    ∃ c', c.put k v now = some (false, c') ∧
      c'.size = c.size ∧ c'.cache = c.cache ∧
      c'.metrics = c.metrics ∧
      WFL c' (i :: (l₁ ++ l₂)) ∧
      (∃ c'', c'.get k = some (some v, c'')) := by
  obtain ⟨c', hput, hw', hcache, hcap, hmet, hnlen, hkey, hvi, hvpres⟩ :=
    LRUCache.put_update_spec hw hk
  refine ⟨c', hput, ?_, hcache, hmet, hw', ?_⟩
  · show c'.cache.length = c.cache.length
    rw [hcache]
  · have hk' : dictGet k c'.cache = some i := by
      rw [hcache]
      exact hk
    have hw'' : WFL c' ([] ++ i :: (l₁ ++ l₂)) := by simpa using hw'
    obtain ⟨c'', hget, -, -, -, -, -, -, -⟩ := LRUCache.get_spec_hit hw'' hk'
    rw [hvi] at hget
    exact ⟨c'', hget⟩

/-- Closed instance of `claim_C5`: updating the tail-most key of a concrete
full cache. -/
theorem claim_C5_witness :
    WFL c2full ([3] ++ 2 :: []) ∧
    dictGet "a" c2full.cache = some 2 ∧
    ∃ c', c2full.put "a" 9 8 = some (false, c') ∧
      c'.size = c2full.size ∧ c'.cache = c2full.cache ∧
      c'.metrics = c2full.metrics ∧
      WFL c' (2 :: ([3] ++ [])) ∧
      (∃ c'', c'.get "a" = some (some 9, c'')) :=
  ⟨by decide, by decide, claim_C5 c2full [3] [] 2 "a" 9 8 (by decide) (by decide)⟩

/-- The interior index list of a well-formed state has no duplicates. -/
theorem WFL.interiorNodup {V : Type} {c : LRUCache V} {l : List Nat}
    (hw : WFL c l) : l.Nodup := by
  have h := hw.nodupIdx
  have hsub : l.Sublist (0 :: l ++ [1]) :=
    List.Sublist.cons 0 (List.sublist_append_left l [1])
  exact h.sublist hsub

/-- Filtering out a different key does not change a lookup. -/
theorem dictGet_filter_ne {k k₀ : String} (h : k ≠ k₀) :
    ∀ (m : List (String × Nat)),
      dictGet k (m.filter fun p => p.1 ≠ k₀) = dictGet k m
  | [] => rfl
  | (k', i) :: rest => by
    by_cases hk' : k' = k
    · subst hk'
      rw [List.filter_cons_of_pos (by simpa using h)]
      simp [dictGet]
    · by_cases hk₀ : k' = k₀
      · rw [List.filter_cons_of_neg (by simpa using hk₀)]
        rw [dictGet_filter_ne h rest]
        simp [dictGet, hk']
      · rw [List.filter_cons_of_pos (by simpa using hk₀)]
        simp only [dictGet, hk', if_neg (by simpa using hk')]
        exact dictGet_filter_ne h rest

/-- Claim C2 (corrected: the property needs `capacity ≥ 2`; at capacity 1 it
fails, see the counterexample).  At full capacity with at least two slots, a
hit on a resident key followed by a `put` of one new distinct key never
evicts the key just accessed — the evicted key is the tail-most
(least-recently-used) among the other keys — and a `get` on the accessed key
afterwards still returns its value. -/
theorem claim_C2 {V : Type} (c : LRUCache V) (l₁ l₂ : List Nat) (i : Nat)
    (k knew : String) (w : V) (now : Nat)
    (hw : WFL c (l₁ ++ i :: l₂)) (hk : dictGet k c.cache = some i)
    (hfull : c.cache.length = c.capacity) (hcap2 : 2 ≤ c.capacity)
    (hnew : dictGet knew c.cache = none) :
    ∃ c₁ c₂ : LRUCache V,
      c.get k = some (valAtN c.nodes i, c₁) ∧
      c₁.put knew w now = some (true, c₂) ∧
      dictGet k c₂.cache = some i ∧
      (∃ jt M, l₁ ++ l₂ = M ++ [jt] ∧
        dictGet (keyAtN c.nodes jt) c₂.cache = none) ∧
      (∃ c₃, c₂.get k = some (valAtN c.nodes i, c₃)) := by
  obtain ⟨c₁, hget, hw₁, hcache₁, hcap₁, hnlen₁, hkey₁, hval₁, hmet₁⟩ :=
    LRUCache.get_spec_hit hw hk
  have hki : keyAtN c.nodes i = k := (hw.dictGet_some_iff.mp hk).2
  have hlen : c.cache.length = (l₁ ++ l₂).length + 1 := by
    have h := hw.length_eq
    simp only [List.length_append, List.length_cons] at h ⊢
    omega
  rcases List.eq_nil_or_concat (l₁ ++ l₂) with hnil | ⟨M, jt, hMjt⟩
  · rw [hnil] at hlen
    simp only [List.length_nil] at hlen
    omega
  rw [List.concat_eq_append] at hMjt
  have hw₁' : WFL c₁ ((i :: M) ++ [jt]) := by
    rw [show (i :: M) ++ [jt] = i :: (M ++ [jt]) from rfl, ← hMjt]
    exact hw₁
  have hjtMem : jt ∈ l₁ ++ l₂ := by
    rw [hMjt]
    simp
  have hjtNe : jt ≠ i := by
    intro h
    have hnd := hw₁.interiorNodup
    rw [List.nodup_cons] at hnd
    exact hnd.1 (h ▸ hjtMem)
  have hjtMem₁ : jt ∈ i :: (l₁ ++ l₂) := List.mem_cons_of_mem i hjtMem
  have hiMem₁ : i ∈ i :: (l₁ ++ l₂) := List.mem_cons_self i _
  have hkjt : keyAtN c₁.nodes jt ≠ k := by
    intro h
    have hkeq : keyAtN c₁.nodes jt = keyAtN c₁.nodes i := by
      rw [h, hkey₁ i, hki]
    exact hjtNe (List.inj_on_of_nodup_map hw₁.keyList_nodup hjtMem₁ hiMem₁ hkeq)
  have hnew₁ : dictGet knew c₁.cache = none := by
    rw [hcache₁]
    exact hnew
  have hfull₁ : c₁.capacity ≤ c₁.cache.length := by
    rw [hcache₁, hcap₁, ← hfull]
  obtain ⟨c₂, hput, hw₂, hcache₂, hclen₂, hcap₂, hnlen₂, hkeyN, hvalN, hpres₂,
    hmet₂, cmid, hpop⟩ := LRUCache.put_evict_spec hw₁' hnew₁ hfull₁
  have hiLt : i < c₁.nodes.length := hw₁.lt_length i (by simp)
  have hk₂ : dictGet k c₂.cache = some i := by
    rw [hcache₂, dictGet_append_of_some]
    rw [dictGet_filter_ne (Ne.symm hkjt), hcache₁]
    exact hk
  refine ⟨c₁, c₂, hget, hput, hk₂, ⟨jt, M, hMjt, ?_⟩, ?_⟩
  · have hkc : keyAtN c.nodes jt = keyAtN c₁.nodes jt := (hkey₁ jt).symm
    rw [hkc, hcache₂]
    have hjtknew : keyAtN c₁.nodes jt ≠ knew := by
      intro h
      have : dictGet (keyAtN c₁.nodes jt) c₁.cache = some jt :=
        hw₁.dictGet_some_iff.mpr ⟨hjtMem₁, rfl⟩
      rw [h, hnew₁] at this
      exact absurd this (by simp)
    rw [dictGet_append_of_none (dictGet_filter_self _ _)]
    exact dictGet_singleton_ne (Ne.symm hjtknew)
  · have hw₂' : WFL c₂ ([c₁.nodes.length] ++ i :: M) := hw₂
    obtain ⟨c₃, hget₂, -, -, -, -, -, -, -⟩ := LRUCache.get_spec_hit hw₂' hk₂
    have hvi : valAtN c₂.nodes i = valAtN c.nodes i := by
      rw [(hpres₂ i (by omega)).2, hval₁ i]
    rw [hvi] at hget₂
    exact ⟨c₃, hget₂⟩

/-- Closed instance of `claim_C2` at capacity 2: accessing the tail-most key
`"a"` protects it, `"b"` is evicted instead. -/
theorem claim_C2_witness :
    WFL c2full ([3] ++ 2 :: []) ∧
    dictGet "a" c2full.cache = some 2 ∧
    c2full.cache.length = c2full.capacity ∧
    dictGet "c" c2full.cache = none ∧
    ∃ c₁ c₂ : LRUCache Nat,
      c2full.get "a" = some (some 1, c₁) ∧
      c₁.put "c" 3 7 = some (true, c₂) ∧
      dictGet "a" c₂.cache = some 2 ∧
      (∃ jt M, [3] ++ ([] : List Nat) = M ++ [jt] ∧
        dictGet (keyAtN c2full.nodes jt) c₂.cache = none) ∧
      (∃ c₃, c₂.get "a" = some (some 1, c₃)) :=
  ⟨by decide, by decide, by decide, by decide,
    claim_C2 c2full [3] [] 2 "a" "c" 3 7 (by decide) (by decide) (by decide)
      (by decide) (by decide)⟩

/-- `LRUCache(1)` after `put("a", 1)` at time 3: full, holding `"a"`. -/
def c2x1 : LRUCache Nat :=
  { capacity := 1
    nodes := [⟨"", none, none, some 2, 0⟩, ⟨"", none, some 2, none, 0⟩,
              ⟨"a", some 1, some 0, some 1, 3⟩]
    cache := [("a", 2)]
    metrics := ⟨0, 0, 0, 0, 1, 1⟩ }

/-- `c2x1` after a hit on `"a"`. -/
def c2x2 : LRUCache Nat :=
  { capacity := 1
    nodes := [⟨"", none, none, some 2, 0⟩, ⟨"", none, some 2, none, 0⟩,
              ⟨"a", some 1, some 0, some 1, 3⟩]
    cache := [("a", 2)]
    metrics := ⟨1, 0, 0, 1, 1, 1⟩ }

/-- `c2x2` after `put("b", 2)` at time 4: `"a"` was evicted. -/
def c2x3 : LRUCache Nat :=
  { capacity := 1
    nodes := [⟨"", none, none, some 3, 0⟩, ⟨"", none, some 3, none, 0⟩,
              ⟨"a", some 1, some 0, some 1, 3⟩, ⟨"b", some 2, some 0, some 1, 4⟩]
    cache := [("b", 3)]
    metrics := ⟨1, 0, 1, 1, 1, 1⟩ }

/-- `c2x3` after the final (missing) `get("a")`. -/
def c2x4 : LRUCache Nat :=
  { capacity := 1
    nodes := [⟨"", none, none, some 3, 0⟩, ⟨"", none, some 3, none, 0⟩,
              ⟨"a", some 1, some 0, some 1, 3⟩, ⟨"b", some 2, some 0, some 1, 4⟩]
    cache := [("b", 3)]
    metrics := ⟨1, 1, 1, 2, 1, 1⟩ }

/-- Claim C2 counterexample: at capacity 1 the property fails as stated.
From a freshly built `LRUCache(1)` holding only `"a"` (so the cache is at
full capacity), a successful `get("a")` (a hit returning its value) followed
by `put` of the new distinct key `"b"` evicts `"a"` itself — the key that
was just accessed — and the subsequent `get("a")` returns absent instead of
its value. -/
theorem claim_C2_counterexample :
    LRUCache.mkLRUCache Nat 1 0 = .ok c1fresh ∧
    c1fresh.put "a" 1 3 = some (true, c2x1) ∧
    c2x1.cache.length = c2x1.capacity ∧
    c2x1.get "a" = some (some 1, c2x2) ∧
    dictGet "b" c2x2.cache = none ∧
    c2x2.put "b" 2 4 = some (true, c2x3) ∧
    dictGet "a" c2x3.cache = none ∧
    c2x3.get "a" = some (none, c2x4) ∧
    (none : Option Nat) ≠ some 1 :=
  ⟨rfl, by decide, by decide, by decide, by decide, by decide, by decide,
    by decide, by decide⟩

/-! ## Filling a cache with a run of fresh puts: the driver for the LRU law -/

/-- Perform a list of `put` calls in order (the `time()` values are
behaviourally irrelevant, see claim C9; they are fixed at 0 here). -/
def LRUCache.putList {V : Type} (c : LRUCache V) :
    List (String × V) → Option (LRUCache V)
  | [] => some c
  | (k, v) :: rest => (c.put k v 0).bind fun p => p.2.putList rest

theorem LRUCache.putList_append {V : Type} :
    ∀ (xs ys : List (String × V)) (c : LRUCache V),
      c.putList (xs ++ ys) = (c.putList xs).bind fun c' => c'.putList ys
  | [], ys, c => by
    show c.putList ys = (some c).bind fun c' => c'.putList ys
    rfl
  | (k, v) :: xs, ys, c => by
    show (c.put k v 0).bind _ = ((c.put k v 0).bind _).bind _
    rw [Option.bind_assoc]
    cases c.put k v 0 with
    | none => rfl
    | some p => exact LRUCache.putList_append xs ys p.2

/-- The dict bindings a run of fresh puts creates, the nodes being allocated
from arena index `start` on. -/
def allocs {V : Type} (start : Nat) : List (String × V) → List (String × Nat)
  | [] => []
  | (k, _) :: rest => (k, start) :: allocs (start + 1) rest

/-- Arena indices `start + n - 1, …, start`: the interior recency list after
a run of `n` fresh puts, newest first. -/
def revSeq (start : Nat) : Nat → List Nat
  | 0 => []
  | n + 1 => revSeq (start + 1) n ++ [start]

theorem allocs_length {V : Type} : ∀ (s : Nat) (kvs : List (String × V)),
    (allocs s kvs).length = kvs.length
  | _, [] => rfl
  | s, (k, v) :: rest => by
    show (allocs (s + 1) rest).length + 1 = rest.length + 1
    rw [allocs_length]

theorem dictGet_allocs_of_not_mem {V : Type} {k : String} :
    ∀ {kvs : List (String × V)} (s : Nat), k ∉ kvs.map Prod.fst →
      dictGet k (allocs s kvs) = none
  | [], _, _ => rfl
  | (k', v) :: rest, s, h => by
    simp only [List.map_cons, List.mem_cons, not_or] at h
    show dictGet k ((k', s) :: allocs (s + 1) rest) = none
    unfold dictGet
    rw [if_neg (fun he => h.1 (by simpa using he.symm))]
    exact dictGet_allocs_of_not_mem (s + 1) h.2

theorem dictGet_allocs_get {V : Type} :
    ∀ {kvs : List (String × V)}, (kvs.map Prod.fst).Nodup →
      ∀ (s t : Nat) (ht : t < kvs.length),
        dictGet (kvs.get ⟨t, ht⟩).1 (allocs s kvs) = some (s + t)
  | [], _, _, t, ht => absurd ht (by simp)
  | (k', v) :: rest, hnd, s, 0, ht => by
    show dictGet k' ((k', s) :: allocs (s + 1) rest) = some (s + 0)
    unfold dictGet
    rw [if_pos rfl]
    rfl
  | (k', v) :: rest, hnd, s, t + 1, ht => by
    simp only [List.map_cons, List.nodup_cons] at hnd
    have h' : t < rest.length := by
      simp only [List.length_cons] at ht
      omega
    show dictGet (rest.get ⟨t, h'⟩).1 ((k', s) :: allocs (s + 1) rest)
      = some (s + (t + 1))
    unfold dictGet
    have hmem : (rest.get ⟨t, h'⟩).1 ∈ rest.map Prod.fst := by
      rw [List.get_eq_getElem]
      exact List.mem_map.mpr ⟨rest[t], List.getElem_mem h', rfl⟩
    rw [if_neg (fun he => hnd.1 (by rw [he]; exact hmem))]
    rw [dictGet_allocs_get hnd.2 (s + 1) t h']
    congr 1
    omega

theorem mem_revSeq : ∀ (n s j : Nat), j ∈ revSeq s n ↔ s ≤ j ∧ j < s + n
  | 0, s, j => by simp [revSeq]
  | n + 1, s, j => by
    show j ∈ revSeq (s + 1) n ++ [s] ↔ _
    rw [List.mem_append, List.mem_singleton, mem_revSeq n (s + 1) j]
    omega

/-- Effect of a run of fresh puts into a cache with spare room for them:
every put succeeds as an insertion, the new nodes occupy the next arena
slots in order carrying the given keys and values, the dict grows by the
corresponding bindings, and the interior recency list gains the new indices
newest-first in front of the old ones. -/
theorem putList_fill {V : Type} :
    ∀ (kvs : List (String × V)) (c : LRUCache V) (l : List Nat),
      WFL c l → (kvs.map Prod.fst).Nodup →
      (∀ p ∈ kvs, dictGet p.1 c.cache = none) →
      c.cache.length + kvs.length ≤ c.capacity →
      ∃ c', c.putList kvs = some c' ∧
        WFL c' (revSeq c.nodes.length kvs.length ++ l) ∧
        c'.cache = c.cache ++ allocs c.nodes.length kvs ∧
        c'.capacity = c.capacity ∧
        c'.nodes.length = c.nodes.length + kvs.length ∧
        (∀ t (ht : t < kvs.length),
          keyAtN c'.nodes (c.nodes.length + t) = (kvs.get ⟨t, ht⟩).1 ∧
          valAtN c'.nodes (c.nodes.length + t) = some (kvs.get ⟨t, ht⟩).2) ∧
        (∀ j, j < c.nodes.length →
          keyAtN c'.nodes j = keyAtN c.nodes j ∧
          valAtN c'.nodes j = valAtN c.nodes j)
  | [], c, l, hw, _, _, _ =>
    ⟨c, rfl, by simpa [revSeq] using hw, by simp [allocs], rfl, by simp,
      fun t ht => absurd ht (by simp), fun j _ => ⟨rfl, rfl⟩⟩
  | (k, v) :: rest, c, l, hw, hnd, habs, hcap => by
    have hk : dictGet k c.cache = none := habs (k, v) (List.mem_cons_self _ _)
    have hlt : c.cache.length < c.capacity := by
      simp only [List.length_cons] at hcap
      omega
    obtain ⟨c₁, hput, hw₁, hcache₁, hcap₁, hnlen₁, hkeyNew, hvalNew, hpres₁,
      hmet₁⟩ := LRUCache.put_new_spec hw hk hlt
    have hndr : (rest.map Prod.fst).Nodup := by
      simp only [List.map_cons, List.nodup_cons] at hnd
      exact hnd.2
    have hknotin : k ∉ rest.map Prod.fst := by
      simp only [List.map_cons, List.nodup_cons] at hnd
      exact hnd.1
    have habs₁ : ∀ p ∈ rest, dictGet p.1 c₁.cache = none := by
      intro p hp
      have hpk : p.1 ≠ k := by
        intro he
        refine hknotin ?_
        rw [← he]
        exact List.mem_map.mpr ⟨p, hp, rfl⟩
      rw [hcache₁, dictGet_append_of_none (habs p (List.mem_cons_of_mem _ hp))]
      exact dictGet_singleton_ne (Ne.symm hpk)
    have hcapr : c₁.cache.length + rest.length ≤ c₁.capacity := by
      have h1 := congrArg List.length hcache₁
      simp only [List.length_append, List.length_singleton] at h1
      simp only [List.length_cons] at hcap
      omega
    obtain ⟨c', hrun, hwR, hcacheR, hcapR, hnlenR, hslotR, hlowR⟩ :=
      putList_fill rest c₁ (c.nodes.length :: l) hw₁ hndr habs₁ hcapr
    refine ⟨c', ?_, ?_, ?_, ?_, ?_, ?_, ?_⟩
    · show (c.put k v 0).bind _ = some c'
      rw [hput]
      exact hrun
    · have hEq : revSeq c₁.nodes.length rest.length ++ (c.nodes.length :: l)
          = revSeq c.nodes.length (rest.length + 1) ++ l := by
        rw [hnlen₁]
        show _ = (revSeq (c.nodes.length + 1) rest.length
          ++ [c.nodes.length]) ++ l
        rw [List.append_assoc]
        rfl
      rw [show ((k, v) :: rest : List (String × V)).length = rest.length + 1
        from rfl, ← hEq]
      exact hwR
    · rw [hcacheR, hcache₁, hnlen₁]
      show (c.cache ++ [(k, c.nodes.length)])
          ++ allocs (c.nodes.length + 1) rest
        = c.cache ++ (k, c.nodes.length) :: allocs (c.nodes.length + 1) rest
      rw [List.append_assoc]
      rfl
    · rw [hcapR, hcap₁]
    · rw [hnlenR, hnlen₁]
      show c.nodes.length + 1 + rest.length
        = c.nodes.length + (rest.length + 1)
      omega
    · intro t ht
      cases t with
      | zero =>
        have hjlt : c.nodes.length < c₁.nodes.length := by omega
        obtain ⟨hkl, hvl⟩ := hlowR c.nodes.length hjlt
        constructor
        · show keyAtN c'.nodes (c.nodes.length + 0) = k
          rw [show c.nodes.length + 0 = c.nodes.length from rfl, hkl, hkeyNew]
        · show valAtN c'.nodes (c.nodes.length + 0) = some v
          rw [show c.nodes.length + 0 = c.nodes.length from rfl, hvl, hvalNew]
      | succ t =>
        have ht' : t < rest.length := by
          simp only [List.length_cons] at ht
          omega
        obtain ⟨hkl, hvl⟩ := hslotR t ht'
        have hidx : c.nodes.length + (t + 1) = c₁.nodes.length + t := by omega
        constructor
        · show keyAtN c'.nodes (c.nodes.length + (t + 1))
            = (rest.get ⟨t, ht'⟩).1
          rw [hidx]
          exact hkl
        · show valAtN c'.nodes (c.nodes.length + (t + 1))
            = some (rest.get ⟨t, ht'⟩).2
          rw [hidx]
          exact hvl
    · intro j hj
      have hj₁ : j < c₁.nodes.length := by omega
      obtain ⟨hkl, hvl⟩ := hlowR j hj₁
      obtain ⟨hkp, hvp⟩ := hpres₁ j (by omega)
      exact ⟨hkl.trans hkp, hvl.trans hvp⟩

/-- An absent key stays absent under any dict filtering. -/
theorem dictGet_none_filter {k : String} {m : List (String × Nat)}
    (h : dictGet k m = none) (q : String × Nat → Bool) :
    dictGet k (m.filter q) = none := by
  rw [dictGet_eq_none_iff] at h ⊢
  intro p hp
  exact h p (List.mem_filter.mp hp).1

/-- Claim C1: the LRU law.  For every capacity `n > 0`: construct a fresh
cache and put `n + 1` distinct keys in order, with no intervening gets.
The whole run succeeds, a `get` on the first-inserted key now misses (it is
the one key evicted), and every other inserted key is still retrievable
with its value. -/
theorem claim_C1 {V : Type} (n : Nat) (hn : 0 < n) (now : Nat)
    (kvs : List (String × V)) (hlen : kvs.length = n + 1)
    (hnd : (kvs.map Prod.fst).Nodup) (c₀ : LRUCache V)
    (hmk : LRUCache.mkLRUCache V n now = .ok c₀) :
    ∃ c', c₀.putList kvs = some c' ∧
      (∀ h0 : 0 < kvs.length,
        ∃ c'', c'.get (kvs.get ⟨0, h0⟩).1 = some (none, c'')) ∧
      (∀ t (ht : t < kvs.length), 1 ≤ t →
        ∃ c'', c'.get (kvs.get ⟨t, ht⟩).1
          = some (some (kvs.get ⟨t, ht⟩).2, c'')) := by
  rw [LRUCache.mkLRUCache_ok (by exact_mod_cast hn)] at hmk
  injection hmk with hc₀
  have hcap0 : c₀.capacity = n := by
    rw [← hc₀]
    exact Int.toNat_natCast n
  have hcache0 : c₀.cache = [] := by
    rw [← hc₀]
  have hnlen0 : c₀.nodes.length = 2 := by
    rw [← hc₀]
    rfl
  have hw0 : WFL c₀ [] := by
    rw [← hc₀]
    exact LRUCache.WFL_mk
  obtain ⟨m, hm⟩ : ∃ m, n = m + 1 := ⟨n - 1, by omega⟩
  subst hm
  rcases List.eq_nil_or_concat kvs with hnil | ⟨front, last, hsplit⟩
  · rw [hnil] at hlen
    simp at hlen
  obtain ⟨kn, vn⟩ := last
  rw [List.concat_eq_append] at hsplit
  subst hsplit
  have hlenF : front.length = m + 1 := by
    simp only [List.length_append, List.length_singleton] at hlen
    omega
  rw [List.map_append, List.nodup_append] at hnd
  have hndF : (front.map Prod.fst).Nodup := hnd.1
  have hknotin : kn ∉ front.map Prod.fst := by
    intro hmem
    exact hnd.2.2 hmem (by simp)
  have habsF : ∀ p ∈ front, dictGet p.1 c₀.cache = none := by
    intro p hp
    rw [hcache0]
    rfl
  have hcapF : c₀.cache.length + front.length ≤ c₀.capacity := by
    rw [hcache0, hcap0]
    simp only [List.length_nil]
    omega
  obtain ⟨cmid, hfill, hwM, hcacheM, hcapM, hnlenM, hslotM, hlowM⟩ :=
    putList_fill front c₀ [] hw0 hndF habsF hcapF
  have hcacheM' : cmid.cache = allocs 2 front := by
    rw [hcacheM, hcache0, hnlen0, List.nil_append]
  have hwM' : WFL cmid (revSeq 3 m ++ [2]) := by
    have h := hwM
    rw [hnlen0, hlenF, List.append_nil] at h
    exact h
  have hnewAbs : dictGet kn cmid.cache = none := by
    rw [hcacheM']
    exact dictGet_allocs_of_not_mem 2 hknotin
  have hfullM : cmid.capacity ≤ cmid.cache.length := by
    rw [hcapM, hcap0, hcacheM', allocs_length 2 front, hlenF]
  obtain ⟨cfin, hputE, hwF, hcacheF, hclenF, hcapF2, hnlenF, hkeyF, hvalF,
    hpresF, hmetF, cmid2, hpop⟩ :=
    LRUCache.put_evict_spec hwM' hnewAbs hfullM
  have h0f : 0 < front.length := by omega
  have hkey2 : keyAtN cmid.nodes 2 = (front.get ⟨0, h0f⟩).1 := by
    have h := (hslotM 0 h0f).1
    rw [hnlen0] at h
    exact h
  have hrunEq : c₀.putList (front ++ [(kn, vn)]) = some cfin := by
    rw [LRUCache.putList_append front [(kn, vn)] c₀, hfill]
    show (cmid.put kn vn 0).bind _ = some cfin
    rw [hputE]
    rfl
  have hnlenM2 : cmid.nodes.length = m + 3 := by
    rw [hnlenM, hnlen0, hlenF]
    omega
  refine ⟨cfin, hrunEq, ?_, ?_⟩
  · -- the first-inserted key misses
    intro h0
    have hk₀ : ((front ++ [(kn, vn)]).get ⟨0, h0⟩).1 = (front.get ⟨0, h0f⟩).1 := by
      rw [List.get_eq_getElem, List.get_eq_getElem]
      rw [List.getElem_append_left h0f]
    have hmem0 : (front.get ⟨0, h0f⟩).1 ∈ front.map Prod.fst := by
      rw [List.get_eq_getElem]
      exact List.mem_map.mpr ⟨front[0], List.getElem_mem h0f, rfl⟩
    have hknne : kn ≠ (front.get ⟨0, h0f⟩).1 := by
      intro he
      exact hknotin (he ▸ hmem0)
    have habs : dictGet (front.get ⟨0, h0f⟩).1 cfin.cache = none := by
      rw [hcacheF, hkey2]
      rw [dictGet_append_of_none (dictGet_filter_self _ _)]
      exact dictGet_singleton_ne hknne
    rw [hk₀]
    exact ⟨_, LRUCache.get_spec_miss habs⟩
  · -- every later key hits with its value
    intro t ht ht1
    by_cases htf : t < front.length
    · -- a key from the filled prefix
      have hkvst : (front ++ [(kn, vn)]).get ⟨t, ht⟩ = front.get ⟨t, htf⟩ := by
        rw [List.get_eq_getElem, List.get_eq_getElem]
        rw [List.getElem_append_left htf]
      have hmapt : ∀ (hq : t < (front.map Prod.fst).length),
          (front.map Prod.fst).get ⟨t, hq⟩ = (front.get ⟨t, htf⟩).1 := by
        intro hq
        rw [List.get_eq_getElem, List.get_eq_getElem, List.getElem_map]
      have hmap0 : ∀ (hq : 0 < (front.map Prod.fst).length),
          (front.map Prod.fst).get ⟨0, hq⟩ = (front.get ⟨0, h0f⟩).1 := by
        intro hq
        rw [List.get_eq_getElem, List.get_eq_getElem, List.getElem_map]
      have hmlen : t < (front.map Prod.fst).length := by
        rw [List.length_map]
        exact htf
      have hmlen0 : 0 < (front.map Prod.fst).length := by
        rw [List.length_map]
        exact h0f
      have hktne : (front.get ⟨t, htf⟩).1 ≠ (front.get ⟨0, h0f⟩).1 := by
        intro he
        have hfin : (⟨t, hmlen⟩ : Fin (front.map Prod.fst).length)
            = ⟨0, hmlen0⟩ := by
          apply hndF.get_inj_iff.mp
          rw [hmapt hmlen, hmap0 hmlen0, he]
        have := Fin.mk.injEq .. ▸ hfin
        omega
      have hdict : dictGet (front.get ⟨t, htf⟩).1 cfin.cache = some (2 + t) := by
        rw [hcacheF, hkey2]
        refine dictGet_append_of_some ?_ _
        rw [dictGet_filter_ne hktne, hcacheM']
        exact dictGet_allocs_get hndF 2 t htf
      have hvalt : valAtN cfin.nodes (2 + t) = some (front.get ⟨t, htf⟩).2 := by
        have hne : 2 + t ≠ cmid.nodes.length := by omega
        rw [(hpresF (2 + t) hne).2]
        have h := (hslotM t htf).2
        rw [hnlen0] at h
        exact h
      have hmemRev : 2 + t ∈ revSeq 3 m := by
        rw [mem_revSeq]
        omega
      obtain ⟨s, u, hdecomp⟩ := List.append_of_mem hmemRev
      have hwF' : WFL cfin ((cmid.nodes.length :: s) ++ (2 + t) :: u) := by
        have h := hwF
        rw [hdecomp] at h
        exact h
      obtain ⟨c₃, hget₃, -, -, -, -, -, -, -⟩ :=
        LRUCache.get_spec_hit hwF' hdict
      rw [hvalt] at hget₃
      rw [hkvst]
      exact ⟨c₃, hget₃⟩
    · -- the last-inserted key
      have hteq : t = m + 1 := by
        simp only [List.length_append, List.length_singleton] at ht
        omega
      have hlast : (front ++ [(kn, vn)]).get ⟨t, ht⟩ = (kn, vn) := by
        rw [List.get_eq_getElem]
        exact List.getElem_concat_length front (kn, vn) t (by omega) _
      have hdict : dictGet kn cfin.cache = some cmid.nodes.length := by
        rw [hcacheF]
        have hnone : dictGet kn (cmid.cache.filter
            (fun p => p.1 ≠ keyAtN cmid.nodes 2)) = none :=
          dictGet_none_filter hnewAbs _
        rw [dictGet_append_of_none hnone]
        exact dictGet_singleton_self kn cmid.nodes.length
      have hwF' : WFL cfin ([] ++ cmid.nodes.length :: revSeq 3 m) := by
        rw [List.nil_append]
        exact hwF
      obtain ⟨c₃, hget₃, -, -, -, -, -, -, -⟩ :=
        LRUCache.get_spec_hit hwF' hdict
      rw [hvalF] at hget₃
      rw [hlast]
      exact ⟨c₃, hget₃⟩

/-- Closed instance of `claim_C1` at capacity 2 with keys `"a"`, `"b"`,
`"c"`. -/
theorem claim_C1_witness :
    (0 : Nat) < 2 ∧
    ([("a", 1), ("b", 2), ("c", 3)] : List (String × Nat)).length = 2 + 1 ∧
    (([("a", 1), ("b", 2), ("c", 3)] : List (String × Nat)).map
      Prod.fst).Nodup ∧
    ∃ c', c2fresh.putList [("a", 1), ("b", 2), ("c", 3)] = some c' ∧
      (∀ h0 : 0 < ([("a", 1), ("b", 2), ("c", 3)]
          : List (String × Nat)).length,
        ∃ c'', c'.get (([("a", 1), ("b", 2), ("c", 3)]
          : List (String × Nat)).get ⟨0, h0⟩).1 = some (none, c'')) ∧
      (∀ t (ht : t < ([("a", 1), ("b", 2), ("c", 3)]
          : List (String × Nat)).length), 1 ≤ t →
        ∃ c'', c'.get (([("a", 1), ("b", 2), ("c", 3)]
            : List (String × Nat)).get ⟨t, ht⟩).1
          = some (some (([("a", 1), ("b", 2), ("c", 3)]
            : List (String × Nat)).get ⟨t, ht⟩).2, c'')) :=
  ⟨by decide, by decide, by decide,
    claim_C1 2 (by decide) 0 [("a", 1), ("b", 2), ("c", 3)] (by decide)
      (by decide) c2fresh rfl⟩
